import Mathlib

/-!
Verification of the cable routing and compliance engine
(`apps/electrical/cable_routing/services/`): `cable_calculator.py`,
`path_optimizer.py` and `routing_engine.py`.

Python floats are modelled as exact rationals (`ℚ`) for the closed-form
electrical formulas, and as real numbers (`ℝ`) where square roots appear
(Euclidean geometry).  Python's `round(x, n)` (round-half-to-even on the
scaled value) is modelled exactly.  Recursion that the source performs on
the call stack (BFS's `while queue`, the Ramer-Douglas-Peucker recursion)
is modelled with an explicit fuel parameter: `none` means the source would
not have terminated within that much fuel.
-/

/-! ## Rounding (Python `round`, half-to-even) -/

/-- Python `round` to an integer: nearest integer, ties to even.  Generic
over the number field so it serves both the exact-rational model of the
calculator and the real-number model of the geometry. -/
def roundHalfEven {α : Type} [LinearOrderedField α] [FloorRing α] [DecidableEq α]
    (x : α) : ℤ :=
  if Int.fract x = 1/2 then (if Even ⌊x⌋ then ⌊x⌋ else ⌊x⌋ + 1) else round x

/-- Python `round(x, n)`: round to the closest multiple of `10 ^ (-n)`,
ties to even. -/
def pyRound {α : Type} [LinearOrderedField α] [FloorRing α] [DecidableEq α]
    (x : α) (n : ℕ) : α :=
  (roundHalfEven (x * 10 ^ n) : α) / 10 ^ n

/-- Python `round(x, n)` on rationals (the calculator's floats). -/
def pyRoundQ (x : ℚ) (n : ℕ) : ℚ := pyRound x n

/-! ## `CableCalculator` (cable_calculator.py), over exact rationals -/

/-- `CableCalculator.RESISTIVITY` with the `.get(conductor, copper-default)`
access used by the calculator: copper 0.01786, aluminum 0.02941, anything
else falls back to copper. -/
def resistivity (conductor : String) : ℚ :=
  if conductor = "copper" then 0.01786
  else if conductor = "aluminum" then 0.02941
  else 0.01786

/-- `CableCalculator.CURRENT_CAPACITY_COPPER_B1`, in the source's
(ascending) key order: pairs (section_mm2, current_A). -/
def CURRENT_CAPACITY_COPPER_B1 : List (ℚ × ℚ) :=
  [(1.5, 13.5), (2.5, 18.0), (4.0, 24.0), (6.0, 31.0), (10.0, 42.0),
   (16.0, 56.0), (25.0, 73.0), (35.0, 89.0), (50.0, 108.0), (70.0, 136.0),
   (95.0, 164.0), (120.0, 188.0), (150.0, 216.0), (185.0, 245.0),
   (240.0, 286.0)]

/-- Dictionary access `CURRENT_CAPACITY_COPPER_B1.get(section, 0.0)`. -/
def capacityLookup (section_mm2 : ℚ) : ℚ :=
  match CURRENT_CAPACITY_COPPER_B1.find? (fun e => decide (e.1 = section_mm2)) with
  | some e => e.2
  | none => 0

/-- `CableCalculator.MAX_VOLTAGE_DROP_TERMINAL` (3 percent). -/
def MAX_VOLTAGE_DROP_TERMINAL : ℚ := 3.0

/-- `CableCalculator.MAX_VOLTAGE_DROP_TOTAL` (5 percent). -/
def MAX_VOLTAGE_DROP_TOTAL : ℚ := 5.0

/-- `CableCalculator.calculate_voltage_drop`:
`(2 * rho * length_m * current_a) / section_mm2`. -/
def calculate_voltage_drop (current_a length_m section_mm2 : ℚ)
    (conductor : String) : ℚ :=
  (2 * resistivity conductor * length_m * current_a) / section_mm2

/-- `CableCalculator.calculate_resistance`:
`(2 * rho * length_m) / section_mm2`. -/
def calculate_resistance (length_m section_mm2 : ℚ) (conductor : String) : ℚ :=
  (2 * resistivity conductor * length_m) / section_mm2

/-- `CableCalculator.get_current_capacity`: copper is a direct table lookup,
any other conductor gets `round(copper_capacity * 0.78, 1)`. -/
def get_current_capacity (section_mm2 : ℚ) (conductor : String) : ℚ :=
  if conductor = "copper" then capacityLookup section_mm2
  else pyRoundQ (capacityLookup section_mm2 * 0.78) 1

/-- `CableCalculator._recommend_section_for_current`: first entry of the
(sorted) copper table whose capacity is at least `current_a`; 240.0 when
none qualifies.  Note the source consults the copper table regardless of
the conductor under check. -/
def recommend_section_for_current (current_a : ℚ) : ℚ :=
  match CURRENT_CAPACITY_COPPER_B1.find? (fun e => decide (current_a ≤ e.2)) with
  | some e => e.1
  | none => 240.0

/-- `CableCalculator._recommend_section_for_voltage_drop`: inverts the drop
formula to a minimal section and picks the first standard section at least
that large; 240.0 when none qualifies. -/
def recommend_section_for_voltage_drop (current_a length_m voltage_v
    max_percent : ℚ) (conductor : String) : ℚ :=
  -- the source's locals rho and min_section are inlined here
  match (CURRENT_CAPACITY_COPPER_B1.map Prod.fst).find?
      (fun s => decide ((2 * resistivity conductor * length_m * current_a * 100) /
        (voltage_v * max_percent) ≤ s)) with
  | some s => s
  | none => 240.0

/-- One entry of the `recommendations` list of `check_cable_sizing`.  The
source stores formatted strings; we keep the data they are formatted from:
which constraint failed and which section the string recommends. -/
inductive Recommendation where
  | currentRec (recommended : ℚ)
  | voltageRec (recommended : ℚ)
  deriving DecidableEq, Repr

/-- The dict returned by `CableCalculator.check_cable_sizing`. -/
structure SizingReport where
  voltage_drop_v : ℚ
  voltage_drop_percent : ℚ
  max_allowed_percent : ℚ
  is_voltage_drop_ok : Bool
  current_capacity_a : ℚ
  is_current_capacity_ok : Bool
  resistance_ohm : ℚ
  power_loss_w : ℚ
  is_compliant : Bool
  recommendations : List Recommendation
  deriving Repr

/-- `CableCalculator.check_cable_sizing`. -/
def check_cable_sizing (current_a length_m section_mm2 voltage_v : ℚ)
    (conductor circuit_type : String) : SizingReport :=
  let v_drop_v := calculate_voltage_drop current_a length_m section_mm2 conductor
  let v_drop_percent := if voltage_v > 0 then v_drop_v / voltage_v * 100 else 0
  let max_percent :=
    if circuit_type = "terminal" then MAX_VOLTAGE_DROP_TERMINAL
    else MAX_VOLTAGE_DROP_TOTAL
  let current_capacity := get_current_capacity section_mm2 conductor
  let is_current_ok := decide (current_a ≤ current_capacity)
  let resistance := calculate_resistance length_m section_mm2 conductor
  let power_loss := resistance * current_a ^ 2
  let is_voltage_ok := decide (v_drop_percent ≤ max_percent)
  let recs : List Recommendation :=
    (if is_current_ok then []
     else [Recommendation.currentRec (recommend_section_for_current current_a)]) ++
    (if is_voltage_ok then []
     else [Recommendation.voltageRec (recommend_section_for_voltage_drop
            current_a length_m voltage_v max_percent conductor)])
  { voltage_drop_v := pyRoundQ v_drop_v 3
    voltage_drop_percent := pyRoundQ v_drop_percent 2
    max_allowed_percent := max_percent
    is_voltage_drop_ok := is_voltage_ok
    current_capacity_a := current_capacity
    is_current_capacity_ok := is_current_ok
    resistance_ohm := pyRoundQ resistance 4
    power_loss_w := pyRoundQ power_loss 2
    is_compliant := is_voltage_ok && is_current_ok
    recommendations := recs }

/-! ## 3D geometry (routing_engine.py, path_optimizer.py), over ℝ -/

/-- A 3D point: the `{'x': .., 'y': .., 'z': ..}` dicts of the source. -/
structure Point3 where
  x : ℝ
  y : ℝ
  z : ℝ
  deriving Inhabited

/-- `RoutingEngine._euclidean_distance`. -/
noncomputable def euclidean_distance (a b : Point3) : ℝ :=
  Real.sqrt ((b.x - a.x) ^ 2 + (b.y - a.y) ^ 2 + (b.z - a.z) ^ 2)

/-- An active cable pathway as loaded by the engine: a named 3D segment
with undirected connections (by pathway id). -/
structure CablePathway where
  id : ℕ
  name : String
  is_active : Bool
  start_x : ℝ
  start_y : ℝ
  start_z : ℝ
  end_x : ℝ
  end_y : ℝ
  end_z : ℝ
  connected : List ℕ

/-- One waypoint dict produced by `RoutingEngine._build_waypoints`. -/
structure WaypointCoord where
  x : ℝ
  y : ℝ
  z : ℝ
  pathway : Option ℕ
  label : String

/-- The coordinates of a waypoint dict. -/
def coordPoint (w : WaypointCoord) : Point3 := ⟨w.x, w.y, w.z⟩

/-- `RoutingEngine._build_waypoints`: exact origin, then for each pathway
its start (entry) and end (exit) points, then the exact destination. -/
def build_waypoints (origin destination : Point3)
    (pathway_sequence : List CablePathway) : List WaypointCoord :=
  let waypoints : List WaypointCoord :=
    [{ x := origin.x, y := origin.y, z := origin.z, pathway := none,
       label := "Départ" }]
  let waypoints := pathway_sequence.foldl
    (fun acc p => acc ++
      [{ x := p.start_x, y := p.start_y, z := p.start_z, pathway := some p.id,
         label := "Entrée " ++ p.name },
       { x := p.end_x, y := p.end_y, z := p.end_z, pathway := some p.id,
         label := "Sortie " ++ p.name }])
    waypoints
  waypoints ++
    [{ x := destination.x, y := destination.y, z := destination.z,
       pathway := none, label := "Arrivée" }]

/-- The loop of `RoutingEngine._calculate_total_length`: sum of Euclidean
distances between consecutive points. -/
noncomputable def sumConsecDist : List Point3 → ℝ
  | a :: b :: rest => euclidean_distance a b + sumConsecDist (b :: rest)
  | _ => 0

/-- `RoutingEngine._calculate_total_length`: the consecutive-distance sum,
then Python `round(total, 2)`. -/
noncomputable def calculate_total_length (waypoints : List WaypointCoord) : ℝ :=
  pyRound (sumConsecDist (waypoints.map coordPoint)) 2

/-! ## `PathOptimizer` (path_optimizer.py) -/

/-- `PathOptimizer._point_to_line_distance`: perpendicular distance via the
3D cross product, with the degenerate zero-length line falling back to the
point-to-point distance. -/
noncomputable def point_to_line_distance (point line_start line_end : Point3) : ℝ :=
  let lvx := line_end.x - line_start.x
  let lvy := line_end.y - line_start.y
  let lvz := line_end.z - line_start.z
  let pvx := point.x - line_start.x
  let pvy := point.y - line_start.y
  let pvz := point.z - line_start.z
  let line_len := Real.sqrt (lvx ^ 2 + lvy ^ 2 + lvz ^ 2)
  if line_len = 0 then Real.sqrt (pvx ^ 2 + pvy ^ 2 + pvz ^ 2)
  else
    let cx := pvy * lvz - pvz * lvy
    let cy := pvz * lvx - pvx * lvz
    let cz := pvx * lvy - pvy * lvx
    Real.sqrt (cx ^ 2 + cy ^ 2 + cz ^ 2) / line_len

/-- The scan of `PathOptimizer._ramer_douglas_peucker` over the interior
points (indices 1 .. len-2): farthest distance from the first-to-last
line, with its index; initial value (0.0, 0). -/
noncomputable def rdpMaxScan (points : List Point3) : ℝ × ℕ :=
  (List.range' 1 (points.length - 2)).foldl
    (fun acc i =>
      let dist := point_to_line_distance (points.getD i default)
        (points.headD default) (points.getLastD default)
      if dist > acc.1 then (dist, i) else acc)
    (0, 0)

/-- `PathOptimizer._ramer_douglas_peucker`, with an explicit fuel bound on
the recursion depth.  `none` means the source recursion would not have
returned within that depth (for a nonnegative tolerance, depth
`points.length` always suffices; for a negative tolerance the source can
recurse forever).  Python slices `points[:max_index+1]` and
`points[max_index:]` are `take`/`drop`; the recursive results are merged
with the right half's indices shifted by `max_index`, dropping the shared
boundary point. -/
noncomputable def ramer_douglas_peucker : ℕ → List Point3 → ℝ → Option (List ℕ)
  | 0, _, _ => none
  | fuel + 1, points, tolerance =>
    if points.length ≤ 2 then some (List.range points.length)
    else
      let scan := rdpMaxScan points
      if scan.1 > tolerance then
        match ramer_douglas_peucker fuel (points.take (scan.2 + 1)) tolerance,
            ramer_douglas_peucker fuel (points.drop scan.2) tolerance with
        | some left_indices, some right_indices =>
          some (left_indices ++ (right_indices.drop 1).map (fun i => i + scan.2))
        | _, _ => none
      else some [0, points.length - 1]

/-- `PathOptimizer.optimize`'s selection
`[waypoints[i] for i in keep_indices]`. -/
def selectIndices {β : Type} (l : List β) (idxs : List ℕ) : List β :=
  idxs.filterMap (fun i => l[i]?)

/-- A `Point3` as a vector of `EuclideanSpace ℝ (Fin 3)`, used to transfer
metric-space facts (the triangle inequality) to `euclidean_distance`. -/
def toE (p : Point3) : EuclideanSpace ℝ (Fin 3) := ![p.x, p.y, p.z]

/-! ## `RoutingEngine` (routing_engine.py) -/

/-- `RoutingEngine._point_to_segment_distance`: clamped projection of the
point onto the segment, then the Euclidean distance; a zero-length segment
falls back to the distance to its start point. -/
noncomputable def point_to_segment_distance (point seg_start seg_end : Point3) :
    ℝ :=
  let dx := seg_end.x - seg_start.x
  let dy := seg_end.y - seg_start.y
  let dz := seg_end.z - seg_start.z
  let seg_len_sq := dx ^ 2 + dy ^ 2 + dz ^ 2
  if seg_len_sq = 0 then euclidean_distance point seg_start
  else
    let t := ((point.x - seg_start.x) * dx + (point.y - seg_start.y) * dy +
      (point.z - seg_start.z) * dz) / seg_len_sq
    let tc := max 0.0 (min 1.0 t)
    euclidean_distance point
      ⟨seg_start.x + tc * dx, seg_start.y + tc * dy, seg_start.z + tc * dz⟩

/-- `RoutingEngine._find_nearest_pathway`: linear scan keeping the pathway
with strictly smaller segment distance; `min_dist` starts at infinity, so
the first pathway always replaces the empty accumulator, and on ties the
earlier pathway is kept.  Returns `none` exactly when the list is empty. -/
noncomputable def find_nearest_pathway (pathways : List CablePathway)
    (point : Point3) : Option CablePathway :=
  (pathways.foldl
    (fun acc pathway =>
      let dist := point_to_segment_distance point
        ⟨pathway.start_x, pathway.start_y, pathway.start_z⟩
        ⟨pathway.end_x, pathway.end_y, pathway.end_z⟩
      match acc with
      | none => some (pathway, dist)
      | some best => if dist < best.2 then some (pathway, dist) else acc)
    none).map Prod.fst

/-- The `connected_pathways` relation by pathway id: BFS compares nodes by
`.id` and expands via `connected_pathways.all()`, so the graph is a map
from a pathway id to the ids of its connected pathways. -/
def adjOf (all : List CablePathway) (i : ℕ) : List ℕ :=
  match all.find? (fun p => decide (p.id = i)) with
  | some p => p.connected
  | none => []

/-- The neighbor loop of `RoutingEngine._bfs`: for each neighbor not yet
visited, mark it visited and append the extended path to the queue. -/
def enqueue_neighbors (current : List ℕ) (neighbors : List ℕ)
    (queue : List (List ℕ)) (visited : Finset ℕ) :
    List (List ℕ) × Finset ℕ :=
  neighbors.foldl
    (fun acc n =>
      if n ∈ acc.2 then acc
      else (acc.1 ++ [current ++ [n]], insert n acc.2))
    (queue, visited)

/-- The `while queue:` loop of `RoutingEngine._bfs`, with fuel: `none`
means the fuel ran out (never happens with fuel above the node count),
`some none` is the source's `return None` (queue exhausted, no path),
`some (some p)` is a found path.  Queue entries are nonempty by
construction, so the `getLast? = none` branch is unreachable. -/
def bfsAux (adj : ℕ → List ℕ) (target : ℕ) :
    ℕ → List (List ℕ) → Finset ℕ → Option (Option (List ℕ))
  | 0, _, _ => none
  | _ + 1, [], _ => some none
  | fuel + 1, current :: rest, visited =>
    match current.getLast? with
    | none => some none
    | some cur =>
      if cur = target then some (some current)
      else
        let qv := enqueue_neighbors current (adj cur) rest visited
        bfsAux adj target fuel qv.1 qv.2

/-- `RoutingEngine._bfs`: queue seeded with `[[start]]`, visited with
`{start.id}`. -/
def bfs (adj : ℕ → List ℕ) (start target fuel : ℕ) :
    Option (Option (List ℕ)) :=
  bfsAux adj target fuel [[start]] {start}

/-- A `CableRoute` row. -/
structure CableRoute where
  id : ℕ
  cable : ℕ
  is_active : Bool
  total_length_m : ℝ
  calculation_notes : String

/-- A `RouteWaypoint` row. -/
structure RouteWaypoint where
  route : ℕ
  order : ℕ
  x : ℝ
  y : ℝ
  z : ℝ
  pathway : Option ℕ
  label : String

/-- The cable fields `calculate_route` touches. -/
structure Cable where
  id : ℕ
  designed_length_m : ℝ

/-- The database state `calculate_route` reads and writes: route rows,
waypoint rows, cables, and a fresh-id counter for created routes. -/
structure EngineDB where
  routes : List CableRoute
  route_waypoints : List RouteWaypoint
  cables : List Cable
  next_route_id : ℕ

/-- The result dict of `RoutingEngine.calculate_route`. -/
structure RouteResult where
  success : Bool
  route : Option CableRoute
  total_length : ℝ
  waypoints : List RouteWaypoint
  message : String

/-- Number of active routes of a cable in the database. -/
def countActiveRoutes (db : EngineDB) (cable : ℕ) : ℕ :=
  (db.routes.filter (fun r => decide (r.cable = cable) && r.is_active)).length

/-- `RoutingEngine.calculate_route` as a state transition on `EngineDB`.
`all` is the pathway table; the engine's `self._pathways` snapshot is its
`is_active` filter (the `__init__` query).  Returns `none` only when the
BFS fuel runs out, which cannot happen for fuel above the pathway count.
On the three failure branches the state is returned unchanged; on success
the cable's active routes are deactivated, one new active route and its
waypoints are inserted, and the cable's designed length is updated.
(Result messages are abbreviated from the French source strings.) -/
noncomputable def calculate_route (all : List CablePathway) (fuel : ℕ)
    (db : EngineDB) (cable : ℕ) (origin destination : Point3) :
    Option (RouteResult × EngineDB) :=
  let pathways := all.filter (fun p => p.is_active)
  if pathways.isEmpty then
    some ({ success := false, route := none, total_length := 0,
            waypoints := [],
            message := "Aucun chemin de câbles disponible dans la base de données." },
      db)
  else
    match find_nearest_pathway pathways origin,
        find_nearest_pathway pathways destination with
    | some origin_pathway, some dest_pathway =>
      let seqResult :=
        if origin_pathway.id = dest_pathway.id then
          some (some [origin_pathway.id])
        else bfs (adjOf all) origin_pathway.id dest_pathway.id fuel
      match seqResult with
      | none => none
      | some none =>
        some ({ success := false, route := none, total_length := 0,
                waypoints := [],
                message := "Aucun chemin trouvé. Vérifiez les connexions entre pathways." },
          db)
      | some (some ids) =>
        let pathway_sequence :=
          ids.filterMap (fun i => all.find? (fun p => decide (p.id = i)))
        let waypoint_coords :=
          build_waypoints origin destination pathway_sequence
        let total_length := calculate_total_length waypoint_coords
        let routes1 := db.routes.map (fun r =>
          if r.cable = cable ∧ r.is_active = true then
            { r with is_active := false }
          else r)
        let route : CableRoute :=
          { id := db.next_route_id, cable := cable, is_active := true,
            total_length_m := total_length,
            calculation_notes := "Tracé calculé automatiquement via BFS." }
        let new_waypoints := (waypoint_coords.enumFrom 1).map
          (fun e => ({ route := route.id, order := e.1, x := e.2.x,
                       y := e.2.y, z := e.2.z, pathway := e.2.pathway,
                       label := e.2.label } : RouteWaypoint))
        some ({ success := true, route := some route,
                total_length := total_length, waypoints := new_waypoints,
                message := "Tracé calculé avec succès." },
          { routes := routes1 ++ [route],
            route_waypoints := db.route_waypoints ++ new_waypoints,
            cables := db.cables.map (fun c =>
              if c.id = cable then { c with designed_length_m := total_length }
              else c),
            next_route_id := db.next_route_id + 1 })
    | _, _ =>
      some ({ success := false, route := none, total_length := 0,
              waypoints := [],
              message := "Impossible de trouver un chemin de câbles à proximité des extrémités." },
        db)

/-- A connecting sequence of pathways (by id) from `start` to `target`:
nonempty, begins at `start`, ends at `target`, and each consecutive pair
is connected in the graph.  Its `length` is the number of pathways
(the hop count of C1). -/
def isPathwaySeq (adj : ℕ → List ℕ) (start target : ℕ) (p : List ℕ) : Prop :=
  p.head? = some start ∧ p.getLast? = some target ∧
    List.Chain' (fun a b => b ∈ adj a) p

/-- A concrete two-pathway connectivity map: pathways 0 and 1 are
mutually connected, every other id is isolated. -/
def twoNodeAdj : ℕ → List ℕ :=
  fun n => if n = 0 then [1] else if n = 1 then [0] else []

/-- The invariant of the BFS loop of `RoutingEngine._bfs` over the state
(queue of paths, visited set), relative to a finite node universe
`nodes`: queued paths are valid paths from `start` ending in visited
nodes; queue lengths are monotone and within one of the front; every
queued path is a shortest path from `start` to its endpoint; every
visited node either still has a queued path ending at it or has all its
neighbors visited; and the target, once visited, still has a queued path
ending at it (BFS returns before expanding it). -/
structure BfsInv (adj : ℕ → List ℕ) (start target : ℕ) (nodes : Finset ℕ)
    (queue : List (List ℕ)) (visited : Finset ℕ) : Prop where
  startVis : start ∈ visited
  visNodes : visited ⊆ nodes
  qhead : ∀ p ∈ queue, p.head? = some start
  qchain : ∀ p ∈ queue, List.Chain' (fun a b => b ∈ adj a) p
  qlastVis : ∀ p ∈ queue, ∀ v, p.getLast? = some v → v ∈ visited
  sorted : List.Chain' (· ≤ ·) (queue.map List.length)
  bddByHead : ∀ p ∈ queue, ∀ h ∈ queue.head?, p.length ≤ h.length + 1
  shortest : ∀ p ∈ queue, ∀ π, π.head? = some start →
    List.Chain' (fun a b => b ∈ adj a) π → π.getLast? = p.getLast? →
    p.length ≤ π.length
  expanded : ∀ v ∈ visited, (∃ p ∈ queue, p.getLast? = some v) ∨
    (∀ n ∈ adj v, n ∈ visited)
  targetQ : target ∈ visited → ∃ p ∈ queue, p.getLast? = some target

/-! ## Theorems -/

/-! ### Rounding characterizations -/

section Rounding

variable {α : Type} [LinearOrderedField α] [FloorRing α] [DecidableEq α]

theorem roundHalfEven_low {x : α} {m : ℤ} (h1 : (m : α) ≤ x)
    (h2 : x < m + 1/2) : roundHalfEven x = m := by
  have hf : ⌊x⌋ = m := Int.floor_eq_iff.2 ⟨h1, by push_cast; linarith⟩
  have hfr : Int.fract x ≠ 1/2 := by
    rw [← Int.self_sub_floor, hf]; intro h; nlinarith [h]
  have hr : round x = m := by
    rw [round_eq, Int.floor_eq_iff]; push_cast; constructor <;> linarith
  rw [roundHalfEven, if_neg hfr, hr]

theorem roundHalfEven_high {x : α} {m : ℤ} (h1 : (m : α) + 1/2 < x)
    (h2 : x < m + 1) : roundHalfEven x = m + 1 := by
  have hf : ⌊x⌋ = m := by
    rw [Int.floor_eq_iff]; push_cast; push_cast at h2; constructor <;> linarith
  have hfr : Int.fract x ≠ 1/2 := by
    rw [← Int.self_sub_floor, hf]; intro h; nlinarith [h]
  have hr : round x = m + 1 := by
    rw [round_eq, Int.floor_eq_iff]; push_cast; constructor <;> linarith
  rw [roundHalfEven, if_neg hfr, hr]

theorem roundHalfEven_tie {x : α} {m : ℤ} (h1 : x = (m : α) + 1/2) :
    roundHalfEven x = if Even m then m else m + 1 := by
  have hf : ⌊x⌋ = m := by
    rw [Int.floor_eq_iff]; push_cast; constructor <;> [rw [h1]; rw [h1]] <;> linarith
  have hfr : Int.fract x = 1/2 := by rw [← Int.self_sub_floor, hf, h1]; ring
  rw [roundHalfEven, if_pos hfr, hf]

/-- `roundHalfEven` never rounds down by more than one half. -/
theorem roundHalfEven_ge (x : α) : (roundHalfEven x : α) ≥ x - 1/2 := by
  unfold roundHalfEven
  have hfl := Int.floor_le x
  have hfu := Int.lt_floor_add_one x
  split
  · split <;> push_cast <;>
      [skip; skip] <;>
      · have := Int.self_sub_floor x ▸ rfl (a := Int.fract x)
        have hfr : x - ⌊x⌋ = 1/2 := by rw [Int.self_sub_floor]; assumption
        linarith
  · have : (round x : α) ≥ x - 1/2 := by
      rw [round_eq]
      have := Int.floor_le (x + 1/2)
      have := Int.lt_floor_add_one (x + 1/2)
      push_cast at *
      linarith
    linarith

end Rounding

/-! ### Capacity-table facts -/

/-- The first match that `find?` returns on a `Pairwise`-ordered list is
minimal among all matches. -/
theorem find?_min_of_pairwise {α : Type} {le : α → α → Prop} {p : α → Bool}
    (hrefl : ∀ x, le x x) :
    ∀ {l : List α} {e : α}, l.Pairwise le → l.find? p = some e →
      ∀ e' ∈ l, p e' = true → le e e' := by
  intro l
  induction l with
  | nil => intro e _ h; simp at h
  | cons a t ih =>
    intro e hp hf e' he' hpe'
    rcases List.pairwise_cons.1 hp with ⟨hat, ht⟩
    cases hpa : p a with
    | true =>
      simp only [List.find?_cons, hpa] at hf
      obtain rfl : a = e := by injection hf
      rcases List.mem_cons.1 he' with rfl | he'
      · exact hrefl _
      · exact hat _ he'
    | false =>
      simp only [List.find?_cons, hpa] at hf
      rcases List.mem_cons.1 he' with rfl | he'
      · rw [hpa] at hpe'; exact absurd hpe' (by simp)
      · exact ih ht hf e' he' hpe'

/-- Looking an entry's own key up in a strictly key-sorted table returns
that entry. -/
theorem find?_key_self {l : List (ℚ × ℚ)}
    (hs : l.Pairwise (fun a b => a.1 < b.1)) :
    ∀ e ∈ l, l.find? (fun x => decide (x.1 = e.1)) = some e := by
  induction l with
  | nil => intro e he; simp at he
  | cons a t ih =>
    intro e he
    rcases List.pairwise_cons.1 hs with ⟨hat, ht⟩
    rw [List.find?_cons]
    rcases List.mem_cons.1 he with rfl | he
    · simp
    · have hne : a.1 ≠ e.1 := ne_of_lt (hat e he)
      simp only [hne, decide_False, if_false]
      exact ih ht e he

theorem capacityTable_sorted_lt :
    CURRENT_CAPACITY_COPPER_B1.Pairwise (fun a b => a.1 < b.1) := by
  norm_num [CURRENT_CAPACITY_COPPER_B1, List.pairwise_cons]

theorem capacityTable_sorted_le :
    CURRENT_CAPACITY_COPPER_B1.Pairwise (fun a b => a.1 ≤ b.1) :=
  List.Pairwise.imp (fun h => le_of_lt h) capacityTable_sorted_lt

theorem capacityTable_keys_sorted_le :
    (CURRENT_CAPACITY_COPPER_B1.map Prod.fst).Pairwise (· ≤ ·) :=
  List.Pairwise.map _ (fun a b h => h) capacityTable_sorted_le

/-- C9: `calculate_voltage_drop` computes exactly
`2 * rho * length * current / section` with rho 0.01786 for copper and
0.02941 for aluminum, and at current 16 A, length 50 m, section 2.5 mm2,
copper, it returns exactly 11.4304 V. -/
theorem C9_voltage_drop_formula :
    (∀ current_a length_m section_mm2 : ℚ,
      calculate_voltage_drop current_a length_m section_mm2 "copper" =
        2 * 0.01786 * length_m * current_a / section_mm2) ∧
    (∀ current_a length_m section_mm2 : ℚ,
      calculate_voltage_drop current_a length_m section_mm2 "aluminum" =
        2 * 0.02941 * length_m * current_a / section_mm2) ∧
    calculate_voltage_drop 16 50 2.5 "copper" = 11.4304 := by
  refine ⟨fun I L S => ?_, fun I L S => ?_, ?_⟩
  · simp [calculate_voltage_drop, resistivity]
  · simp [calculate_voltage_drop, resistivity]
  · norm_num [calculate_voltage_drop, resistivity]

/-! ### C8: unknown sections -/

/-- C8 counterexample: section 3 mm2 is absent from the capacity table and
gets ampacity 0, yet with operating current 0 A the current-capacity check
of `check_cable_sizing` reports *compliant* (`0 <= 0`), refuting
"non-compliant regardless of the operating current". -/
theorem C8_cex_zero_current_compliant :
    (∀ e ∈ CURRENT_CAPACITY_COPPER_B1, e.1 ≠ (3 : ℚ)) ∧
    get_current_capacity 3 "copper" = 0 ∧
    (check_cable_sizing 0 20 3 230 "copper" "terminal").is_current_capacity_ok
      = true := by
  refine ⟨?_, ?_, ?_⟩
  · norm_num [CURRENT_CAPACITY_COPPER_B1]
  · norm_num [get_current_capacity, capacityLookup, CURRENT_CAPACITY_COPPER_B1,
      List.find?]
  · norm_num [check_cable_sizing, get_current_capacity, capacityLookup,
      CURRENT_CAPACITY_COPPER_B1, List.find?]

/-- C8 (amended): a section absent from the standard capacity table gets
ampacity 0 from `get_current_capacity` (for any conductor), and for every
*positive* operating current the current-capacity check of
`check_cable_sizing` reports non-compliant. -/
theorem C8_unknown_section_noncompliant (section_mm2 : ℚ) (conductor : String)
    (habs : ∀ e ∈ CURRENT_CAPACITY_COPPER_B1, e.1 ≠ section_mm2) :
    get_current_capacity section_mm2 conductor = 0 ∧
    ∀ current_a length_m voltage_v : ℚ, ∀ circuit_type : String,
      0 < current_a →
      (check_cable_sizing current_a length_m section_mm2 voltage_v conductor
        circuit_type).is_current_capacity_ok = false := by
  have hfind : CURRENT_CAPACITY_COPPER_B1.find?
      (fun e => decide (e.1 = section_mm2)) = none := by
    rw [List.find?_eq_none]
    intro e he
    simp [habs e he]
  have hlk : capacityLookup section_mm2 = 0 := by
    rw [capacityLookup, hfind]
  have hcap : get_current_capacity section_mm2 conductor = 0 := by
    rw [get_current_capacity, hlk]
    split
    · rfl
    · have h0 : roundHalfEven ((0 : ℚ) * 0.78 * 10 ^ 1) = 0 :=
        roundHalfEven_low (by norm_num) (by norm_num)
      rw [pyRoundQ, pyRound, h0]
      norm_num
  refine ⟨hcap, fun current_a length_m voltage_v circuit_type hpos => ?_⟩
  simp only [check_cable_sizing, hcap]
  simp [hpos.not_le]

/-- C8 witness: section 3 mm2 is not in the table; at 16 A the check is
non-compliant for current, and the reported ampacity is 0. -/
theorem C8_unknown_section_noncompliant_witness :
    get_current_capacity 3 "copper" = 0 ∧
    (check_cable_sizing 16 20 3 230 "copper" "terminal").is_current_capacity_ok
      = false := by
  have h := C8_unknown_section_noncompliant 3 "copper"
    (by norm_num [CURRENT_CAPACITY_COPPER_B1])
  exact ⟨h.1, h.2 16 20 230 "terminal" (by norm_num)⟩

/-! ### C7: sizing recommendations -/

/-- C7 counterexample: for an aluminum cable at 30 A on a 2.5 mm2 section,
the current-capacity check fails (aluminum ampacity 14.0 A), and the
recommendation names section 6 mm2 — the smallest *copper* entry with
ampacity at least 30 A — but for the given conductor (aluminum) that
section's ampacity is 24.2 A, below the operating current.  So the
recommended section does not satisfy the failed constraint for the given
inputs. -/
theorem C7_cex_aluminum_recommendation :
    (check_cable_sizing 30 1 2.5 230 "aluminum" "terminal").is_current_capacity_ok
      = false ∧
    (check_cable_sizing 30 1 2.5 230 "aluminum" "terminal").recommendations
      = [Recommendation.currentRec 6] ∧
    get_current_capacity 6 "aluminum" < 30 := by
  have hc25 : get_current_capacity 2.5 "aluminum" = 14 := by
    have hl : capacityLookup 2.5 = 18 := by
      norm_num [capacityLookup, CURRENT_CAPACITY_COPPER_B1, List.find?]
    have h140 : roundHalfEven ((18 : ℚ) * 0.78 * 10 ^ 1) = 140 :=
      roundHalfEven_low (by norm_num) (by norm_num)
    rw [get_current_capacity, if_neg (by decide), hl, pyRoundQ, pyRound, h140]
    norm_num
  have hc6 : get_current_capacity 6 "aluminum" = 24.2 := by
    have hl : capacityLookup 6 = 31 := by
      norm_num [capacityLookup, CURRENT_CAPACITY_COPPER_B1, List.find?]
    have h242 : roundHalfEven ((31 : ℚ) * 0.78 * 10 ^ 1) = 242 := by
      rw [roundHalfEven_high (m := 241) (by norm_num) (by norm_num)]
      norm_num
    rw [get_current_capacity, if_neg (by decide), hl, pyRoundQ, pyRound, h242]
    norm_num
  have hrec : recommend_section_for_current 30 = 6 := by
    norm_num [recommend_section_for_current, CURRENT_CAPACITY_COPPER_B1,
      List.find?]
  refine ⟨?_, ?_, by rw [hc6]; norm_num⟩
  · simp only [check_cable_sizing, hc25]
    norm_num
  · simp only [check_cable_sizing, hc25, hrec, calculate_voltage_drop,
      resistivity, if_neg (show ¬"aluminum" = "copper" by decide),
      if_pos (show "aluminum" = "aluminum" from rfl)]
    norm_num [MAX_VOLTAGE_DROP_TERMINAL]

theorem capacityTable_keys_pos :
    ∀ s ∈ CURRENT_CAPACITY_COPPER_B1.map Prod.fst, (0 : ℚ) < s := by
  norm_num [CURRENT_CAPACITY_COPPER_B1]

/-- C7 (amended): for a *copper* conductor, and whenever some table entry
can satisfy the failed constraint at all (current within the largest
tabulated ampacity, required minimal section within the largest tabulated
section), each failed check of `check_cable_sizing` is reported with a
recommendation naming the smallest standard section that satisfies that
specific constraint.  (The counterexample shows the original claim fails
for aluminum, whose current recommendation is computed from the copper
table.) -/
theorem C7_copper_recommendations_minimal
    (current_a length_m section_mm2 voltage_v : ℚ) (circuit_type : String)
    (hU : 0 < voltage_v) :
    ((check_cable_sizing current_a length_m section_mm2 voltage_v "copper"
        circuit_type).is_current_capacity_ok = false →
      current_a ≤ 286 →
      ∃ s, Recommendation.currentRec s ∈
          (check_cable_sizing current_a length_m section_mm2 voltage_v "copper"
            circuit_type).recommendations ∧
        current_a ≤ get_current_capacity s "copper" ∧
        ∀ e ∈ CURRENT_CAPACITY_COPPER_B1, current_a ≤ e.2 → s ≤ e.1) ∧
    ((check_cable_sizing current_a length_m section_mm2 voltage_v "copper"
        circuit_type).is_voltage_drop_ok = false →
      2 * resistivity "copper" * length_m * current_a * 100 /
          (voltage_v * (check_cable_sizing current_a length_m section_mm2
            voltage_v "copper" circuit_type).max_allowed_percent) ≤ 240 →
      ∃ s, Recommendation.voltageRec s ∈
          (check_cable_sizing current_a length_m section_mm2 voltage_v "copper"
            circuit_type).recommendations ∧
        calculate_voltage_drop current_a length_m s "copper" / voltage_v * 100 ≤
          (check_cable_sizing current_a length_m section_mm2 voltage_v "copper"
            circuit_type).max_allowed_percent ∧
        ∀ s' ∈ CURRENT_CAPACITY_COPPER_B1.map Prod.fst,
          2 * resistivity "copper" * length_m * current_a * 100 /
            (voltage_v * (check_cable_sizing current_a length_m section_mm2
              voltage_v "copper" circuit_type).max_allowed_percent) ≤ s' →
          s ≤ s') := by
  simp only [check_cable_sizing]
  generalize hmpd : (if circuit_type = "terminal"
      then MAX_VOLTAGE_DROP_TERMINAL else MAX_VOLTAGE_DROP_TOTAL) = mp
  have hmp : (0 : ℚ) < mp := by
    rw [← hmpd]
    split <;> norm_num [MAX_VOLTAGE_DROP_TERMINAL, MAX_VOLTAGE_DROP_TOTAL]
  constructor
  · intro hnotok hle286
    cases hf : CURRENT_CAPACITY_COPPER_B1.find?
        (fun e => decide (current_a ≤ e.2)) with
    | none =>
      exfalso
      have h := List.find?_eq_none.1 hf (240, 286)
        (by norm_num [CURRENT_CAPACITY_COPPER_B1])
      simp at h
      exact absurd hle286 (by exact_mod_cast h.not_le)
    | some e =>
      have hmem : e ∈ CURRENT_CAPACITY_COPPER_B1 := List.mem_of_find?_eq_some hf
      have hpe : current_a ≤ e.2 := by
        have := List.find?_some hf
        simpa using this
      refine ⟨e.1, ?_, ?_, ?_⟩
      · have hrec : recommend_section_for_current current_a = e.1 := by
          rw [recommend_section_for_current, hf]
        rw [hnotok, hrec]
        simp
      · have hself := find?_key_self capacityTable_sorted_lt e hmem
        rw [get_current_capacity, if_pos rfl, capacityLookup, hself]
        exact hpe
      · intro e' he' hle'
        exact @find?_min_of_pairwise (ℚ × ℚ) (fun a b => a.1 ≤ b.1) _
          (fun x => le_refl x.1) _ _
          capacityTable_sorted_le hf e' he' (by simpa using hle')
  · intro hnotok hminle
    cases hf : (CURRENT_CAPACITY_COPPER_B1.map Prod.fst).find?
        (fun s => decide (2 * resistivity "copper" * length_m * current_a * 100 /
          (voltage_v * mp) ≤ s)) with
    | none =>
      exfalso
      have h := List.find?_eq_none.1 hf 240
        (by norm_num [CURRENT_CAPACITY_COPPER_B1])
      simp at h
      exact absurd hminle (by exact_mod_cast h.not_le)
    | some s =>
      have hmem : s ∈ CURRENT_CAPACITY_COPPER_B1.map Prod.fst :=
        List.mem_of_find?_eq_some hf
      have hs : (0 : ℚ) < s := capacityTable_keys_pos s hmem
      have hps : 2 * resistivity "copper" * length_m * current_a * 100 /
          (voltage_v * mp) ≤ s := by
        have := List.find?_some hf
        simpa using this
      refine ⟨s, ?_, ?_, ?_⟩
      · have hrec : recommend_section_for_voltage_drop current_a length_m
            voltage_v mp "copper" = s := by
          unfold recommend_section_for_voltage_drop
          rw [hf]
        rw [hnotok, hrec]
        simp
      · have hA : 2 * resistivity "copper" * length_m * current_a * 100 ≤
            s * (voltage_v * mp) :=
          (div_le_iff (by positivity)).1 hps
        rw [calculate_voltage_drop, div_div, div_mul_eq_mul_div,
          div_le_iff (by positivity)]
        nlinarith [hA]
      · intro s' hs' hle'
        exact @find?_min_of_pairwise ℚ (fun a b => a ≤ b) _ (fun x => le_refl x)
          _ _ capacityTable_keys_sorted_le hf s' hs' (by simpa using hle')

/-- C7 witness: copper, 100 A on 1.5 mm2 over 10 m at 230 V fails the
current check; the amended theorem yields the minimal satisfying section. -/
theorem C7_copper_recommendations_minimal_witness :
    ∃ s, Recommendation.currentRec s ∈
        (check_cable_sizing 100 10 1.5 230 "copper"
          "terminal").recommendations ∧
      (100 : ℚ) ≤ get_current_capacity s "copper" ∧
      ∀ e ∈ CURRENT_CAPACITY_COPPER_B1, (100 : ℚ) ≤ e.2 → s ≤ e.1 := by
  have h := (C7_copper_recommendations_minimal 100 10 1.5 230 "terminal"
    (by norm_num)).1
  apply h
  · have hl : capacityLookup 1.5 = 13.5 := by
      norm_num [capacityLookup, CURRENT_CAPACITY_COPPER_B1, List.find?]
    simp only [check_cable_sizing, get_current_capacity, if_pos rfl, hl]
    norm_num
  · norm_num

/-! ### C4/C5: waypoint construction and route length -/

theorem foldl_append_blocks {β γ : Type} (h : β → List γ) :
    ∀ (l : List β) (ws : List γ),
      l.foldl (fun acc p => acc ++ h p) ws = ws ++ l.bind h := by
  intro l
  induction l with
  | nil => intro ws; simp
  | cons a t ih => intro ws; simp [ih]

theorem length_bind_const_two {β γ : Type} (h : β → List γ)
    (hh : ∀ p, (h p).length = 2) (l : List β) :
    (l.bind h).length = 2 * l.length := by
  induction l with
  | nil => simp
  | cons a t ih => simp [ih, hh]; omega

/-- The waypoint dict for the origin, labelled "Départ". -/
def originWaypoint (o : Point3) : WaypointCoord :=
  { x := o.x, y := o.y, z := o.z, pathway := none, label := "Départ" }

/-- The waypoint dict for the destination, labelled "Arrivée". -/
def destinationWaypoint (d : Point3) : WaypointCoord :=
  { x := d.x, y := d.y, z := d.z, pathway := none, label := "Arrivée" }

/-- The entry waypoint of a pathway: its start point. -/
def entryWaypoint (p : CablePathway) : WaypointCoord :=
  { x := p.start_x, y := p.start_y, z := p.start_z, pathway := some p.id,
    label := "Entrée " ++ p.name }

/-- The exit waypoint of a pathway: its end point. -/
def exitWaypoint (p : CablePathway) : WaypointCoord :=
  { x := p.end_x, y := p.end_y, z := p.end_z, pathway := some p.id,
    label := "Sortie " ++ p.name }

theorem build_waypoints_decomp (origin destination : Point3)
    (seq : List CablePathway) :
    build_waypoints origin destination seq =
      originWaypoint origin ::
        (seq.bind (fun p => [entryWaypoint p, exitWaypoint p]) ++
          [destinationWaypoint destination]) := by
  rw [build_waypoints]
  simp only [originWaypoint, destinationWaypoint, entryWaypoint, exitWaypoint]
  rw [foldl_append_blocks]
  simp

/-- C4: `_build_waypoints` returns exactly the origin waypoint, then for
each pathway in sequence order its start point labelled as entry and its
end point labelled as exit, then the destination waypoint; the output
length is exactly `2 + 2 * n`. -/
theorem C4_build_waypoints_structure (origin destination : Point3)
    (seq : List CablePathway) :
    build_waypoints origin destination seq =
      originWaypoint origin ::
        (seq.bind (fun p => [entryWaypoint p, exitWaypoint p]) ++
          [destinationWaypoint destination]) ∧
    (build_waypoints origin destination seq).length = 2 + 2 * seq.length := by
  refine ⟨build_waypoints_decomp origin destination seq, ?_⟩
  rw [build_waypoints_decomp, List.length_cons, List.length_append,
    length_bind_const_two (fun p => [entryWaypoint p, exitWaypoint p])
      (fun p => rfl)]
  simp
  omega

theorem euclidean_distance_eq_dist (a b : Point3) :
    euclidean_distance a b = dist (toE a) (toE b) := by
  rw [euclidean_distance, EuclideanSpace.dist_eq]
  simp only [toE, Fin.sum_univ_three, Matrix.cons_val_zero, Matrix.cons_val_one,
    Matrix.head_cons, Matrix.cons_val_two, Matrix.tail_cons, Real.dist_eq,
    sq_abs]
  congr 1
  ring

theorem euclidean_distance_self (a : Point3) : euclidean_distance a a = 0 := by
  rw [euclidean_distance_eq_dist, dist_self]

theorem euclidean_distance_triangle (a b c : Point3) :
    euclidean_distance a c ≤ euclidean_distance a b + euclidean_distance b c := by
  rw [euclidean_distance_eq_dist, euclidean_distance_eq_dist,
    euclidean_distance_eq_dist]
  exact dist_triangle _ _ _

theorem sumConsecDist_ge :
    ∀ (l : List Point3) (a b : Point3), (a :: l).getLast? = some b →
      euclidean_distance a b ≤ sumConsecDist (a :: l) := by
  intro l
  induction l with
  | nil =>
    intro a b hb
    simp at hb
    subst hb
    simp [sumConsecDist, euclidean_distance_self]
  | cons c t ih =>
    intro a b hb
    have hb' : (c :: t).getLast? = some b := by
      rwa [List.getLast?_cons_cons] at hb
    calc euclidean_distance a b ≤
        euclidean_distance a c + euclidean_distance c b :=
          euclidean_distance_triangle a c b
      _ ≤ euclidean_distance a c + sumConsecDist (c :: t) := by
          have := ih c b hb'
          linarith
      _ = sumConsecDist (a :: c :: t) := by rw [sumConsecDist]

theorem pyRound_ge {α : Type} [LinearOrderedField α] [FloorRing α]
    [DecidableEq α] (x : α) (n : ℕ) : x - 1 / (2 * 10 ^ n) ≤ pyRound x n := by
  have h := roundHalfEven_ge (x * 10 ^ n)
  have hp : (0 : α) < 10 ^ n := by positivity
  rw [pyRound, le_div_iff hp]
  have heq : (x - 1 / (2 * 10 ^ n)) * 10 ^ n = x * 10 ^ n - 1 / 2 := by
    field_simp
    ring
  rw [heq]
  exact h

/-- C5 (amended): the unrounded consecutive-distance sum over the built
waypoints is at least the straight-line origin-destination distance (the
triangle inequality); the value actually returned by
`_calculate_total_length` is that sum rounded to 2 decimals and therefore
only guaranteed to be at least the straight-line distance minus 1/200.
(The counterexample shows the returned, rounded value itself can drop
below the straight-line distance.) -/
theorem C5_route_length_amended (origin destination : Point3)
    (seq : List CablePathway) :
    euclidean_distance origin destination ≤
      sumConsecDist ((build_waypoints origin destination seq).map coordPoint) ∧
    euclidean_distance origin destination - 1 / 200 ≤
      calculate_total_length (build_waypoints origin destination seq) := by
  have hmap : (build_waypoints origin destination seq).map coordPoint =
      origin :: (((seq.bind (fun p => [entryWaypoint p, exitWaypoint p])).map
        coordPoint) ++ [destination]) := by
    rw [build_waypoints_decomp]
    simp [coordPoint, originWaypoint, destinationWaypoint]
  have hlast : (origin :: (((seq.bind
      (fun p => [entryWaypoint p, exitWaypoint p])).map coordPoint) ++
        [destination])).getLast? = some destination := by
    rw [← List.cons_append, List.getLast?_concat]
  have h1 : euclidean_distance origin destination ≤
      sumConsecDist ((build_waypoints origin destination seq).map coordPoint) := by
    rw [hmap]
    exact sumConsecDist_ge _ origin destination hlast
  refine ⟨h1, ?_⟩
  rw [calculate_total_length]
  have h2 := pyRound_ge
    (sumConsecDist ((build_waypoints origin destination seq).map coordPoint)) 2
  have h3 : (1 : ℝ) / (2 * 10 ^ 2) = 1 / 200 := by norm_num
  rw [h3] at h2
  linarith

theorem euclidean_distance_xaxis (x1 x2 : ℝ) :
    euclidean_distance ⟨x1, 0, 0⟩ ⟨x2, 0, 0⟩ = |x2 - x1| := by
  show Real.sqrt ((x2 - x1) ^ 2 + (0 - 0) ^ 2 + (0 - 0) ^ 2) = |x2 - x1|
  rw [show (x2 - x1) ^ 2 + ((0 : ℝ) - 0) ^ 2 + ((0 : ℝ) - 0) ^ 2 =
    (x2 - x1) ^ 2 by ring, Real.sqrt_sq_eq_abs]

/-- C5 counterexample: origin (0,0,0), destination (1.001,0,0), one
pathway from (0,0,0) to (1.003,0,0).  The consecutive-distance sum is
0 + 1.003 + 0.002 = 1.005, which `round(total, 2)` (half-to-even) rounds
down to 1.00, strictly below the straight-line distance 1.001.  So the
value returned by `_calculate_total_length` is less than the straight-line
origin-destination distance, refuting the claim as stated. -/
theorem C5_cex_rounded_total_below_straight_line :
    calculate_total_length (build_waypoints ⟨0, 0, 0⟩ ⟨1.001, 0, 0⟩
        [{ id := 1, name := "P1", is_active := true,
           start_x := 0, start_y := 0, start_z := 0,
           end_x := 1.003, end_y := 0, end_z := 0, connected := [] }]) <
      euclidean_distance ⟨0, 0, 0⟩ ⟨1.001, 0, 0⟩ := by
  have hmap : (build_waypoints ⟨0, 0, 0⟩ ⟨1.001, 0, 0⟩
      [{ id := 1, name := "P1", is_active := true,
         start_x := 0, start_y := 0, start_z := 0,
         end_x := 1.003, end_y := 0, end_z := 0, connected := [] }]).map
        coordPoint =
      [⟨0, 0, 0⟩, ⟨0, 0, 0⟩, ⟨1.003, 0, 0⟩, ⟨1.001, 0, 0⟩] := by
    rfl
  have hsum : sumConsecDist
      [(⟨0, 0, 0⟩ : Point3), ⟨0, 0, 0⟩, ⟨1.003, 0, 0⟩, ⟨1.001, 0, 0⟩] =
      1.005 := by
    simp only [sumConsecDist, euclidean_distance_xaxis]
    rw [show |(0 : ℝ) - 0| = 0 by simp,
      show |(1.003 : ℝ) - 0| = 1.003 by rw [abs_of_nonneg (by norm_num)]; norm_num,
      show |(1.001 : ℝ) - 1.003| = 0.002 by
        rw [abs_of_nonpos (by norm_num)]; norm_num]
    norm_num
  rw [calculate_total_length, hmap, hsum]
  have htie : roundHalfEven ((1.005 : ℝ) * 10 ^ 2) = 100 := by
    rw [roundHalfEven_tie (m := 100) (by norm_num)]
    decide
  rw [pyRound, htie, euclidean_distance_xaxis]
  rw [show |(1.001 : ℝ) - 0| = 1.001 by rw [abs_of_nonneg (by norm_num)]; norm_num]
  norm_num

/-! ### C6/C10: Ramer-Douglas-Peucker -/

theorem sqrt_val {a b : ℝ} (hb : 0 ≤ b) (h : b ^ 2 = a) : Real.sqrt a = b := by
  rw [← h]
  exact Real.sqrt_sq hb

theorem point_to_line_distance_eq (point ls le : Point3)
    (h : Real.sqrt ((le.x - ls.x) ^ 2 + (le.y - ls.y) ^ 2 + (le.z - ls.z) ^ 2)
      ≠ 0) :
    point_to_line_distance point ls le =
      Real.sqrt
        (((point.y - ls.y) * (le.z - ls.z) - (point.z - ls.z) * (le.y - ls.y)) ^ 2 +
         ((point.z - ls.z) * (le.x - ls.x) - (point.x - ls.x) * (le.z - ls.z)) ^ 2 +
         ((point.x - ls.x) * (le.y - ls.y) - (point.y - ls.y) * (le.x - ls.x)) ^ 2) /
      Real.sqrt ((le.x - ls.x) ^ 2 + (le.y - ls.y) ^ 2 + (le.z - ls.z) ^ 2) := by
  simp only [point_to_line_distance]
  rw [if_neg h]

theorem pld_collinear_example :
    point_to_line_distance ⟨5, 0, 0⟩ ⟨0, 0, 0⟩ ⟨10, 0, 0⟩ = 0 := by
  rw [point_to_line_distance_eq _ _ _ (by
    rw [show ((10 : ℝ) - 0) ^ 2 + ((0 : ℝ) - 0) ^ 2 + ((0 : ℝ) - 0) ^ 2 = 100
      by norm_num]
    rw [sqrt_val (by norm_num : (0 : ℝ) ≤ 10) (by norm_num)]
    norm_num)]
  norm_num

theorem pld_corner_example :
    point_to_line_distance ⟨10, 0, 0⟩ ⟨0, 0, 0⟩ ⟨10, 10, 0⟩ =
      100 / Real.sqrt 200 := by
  rw [point_to_line_distance_eq _ _ _ (by
    rw [show ((10 : ℝ) - 0) ^ 2 + ((10 : ℝ) - 0) ^ 2 + ((0 : ℝ) - 0) ^ 2 = 200
      by norm_num]
    intro hzero
    have := Real.sqrt_eq_zero (by norm_num : (0:ℝ) ≤ 200) |>.1 hzero
    norm_num at this)]
  norm_num
  rw [sqrt_val (show (0 : ℝ) ≤ 100 by norm_num)
    (show (100 : ℝ) ^ 2 = 10000 by norm_num)]

theorem rdpMaxScan_collinear_example :
    rdpMaxScan [⟨0, 0, 0⟩, ⟨5, 0, 0⟩, ⟨10, 0, 0⟩] = (0, 0) := by
  simp only [rdpMaxScan]
  rw [show List.range' 1 (([(⟨0,0,0⟩ : Point3), ⟨5,0,0⟩, ⟨10,0,0⟩]).length - 2)
    = [1] from rfl]
  simp only [List.foldl_cons, List.foldl_nil]
  rw [show ([(⟨0,0,0⟩ : Point3), ⟨5,0,0⟩, ⟨10,0,0⟩]).getD 1 default
    = ⟨5,0,0⟩ from rfl]
  rw [show ([(⟨0,0,0⟩ : Point3), ⟨5,0,0⟩, ⟨10,0,0⟩]).headD default
    = ⟨0,0,0⟩ from rfl]
  rw [show ([(⟨0,0,0⟩ : Point3), ⟨5,0,0⟩, ⟨10,0,0⟩]).getLastD default
    = ⟨10,0,0⟩ from rfl]
  rw [pld_collinear_example]
  simp

theorem rdp_collinear_example :
    ramer_douglas_peucker 3 [⟨0, 0, 0⟩, ⟨5, 0, 0⟩, ⟨10, 0, 0⟩] 0.1 =
      some [0, 2] := by
  show ramer_douglas_peucker (2 + 1) [⟨0, 0, 0⟩, ⟨5, 0, 0⟩, ⟨10, 0, 0⟩] 0.1 =
    some [0, 2]
  simp only [ramer_douglas_peucker]
  rw [if_neg (by norm_num), rdpMaxScan_collinear_example]
  norm_num

theorem corner_dist_pos : (0 : ℝ) < 100 / Real.sqrt 200 :=
  div_pos (by norm_num) (Real.sqrt_pos.2 (by norm_num))

theorem corner_dist_gt_tolerance : (0.1 : ℝ) < 100 / Real.sqrt 200 := by
  have hlt : Real.sqrt 200 < 1000 :=
    (Real.sqrt_lt' (by norm_num : (0 : ℝ) < 1000)).2 (by norm_num)
  have hpos : (0 : ℝ) < Real.sqrt 200 := Real.sqrt_pos.2 (by norm_num)
  rw [lt_div_iff hpos]
  nlinarith [hlt, hpos]

theorem rdpMaxScan_corner_example :
    rdpMaxScan [⟨0, 0, 0⟩, ⟨10, 0, 0⟩, ⟨10, 10, 0⟩] =
      (100 / Real.sqrt 200, 1) := by
  simp only [rdpMaxScan]
  rw [show List.range' 1 (([(⟨0,0,0⟩ : Point3), ⟨10,0,0⟩, ⟨10,10,0⟩]).length - 2)
    = [1] from rfl]
  simp only [List.foldl_cons, List.foldl_nil]
  rw [show ([(⟨0,0,0⟩ : Point3), ⟨10,0,0⟩, ⟨10,10,0⟩]).getD 1 default
    = ⟨10,0,0⟩ from rfl]
  rw [show ([(⟨0,0,0⟩ : Point3), ⟨10,0,0⟩, ⟨10,10,0⟩]).headD default
    = ⟨0,0,0⟩ from rfl]
  rw [show ([(⟨0,0,0⟩ : Point3), ⟨10,0,0⟩, ⟨10,10,0⟩]).getLastD default
    = ⟨10,10,0⟩ from rfl]
  rw [pld_corner_example]
  rw [if_pos (by exact corner_dist_pos)]

theorem rdp_corner_example :
    ramer_douglas_peucker 3 [⟨0, 0, 0⟩, ⟨10, 0, 0⟩, ⟨10, 10, 0⟩] 0.1 =
      some [0, 1, 2] := by
  show ramer_douglas_peucker (2 + 1) [⟨0, 0, 0⟩, ⟨10, 0, 0⟩, ⟨10, 10, 0⟩] 0.1 =
    some [0, 1, 2]
  simp only [ramer_douglas_peucker]
  rw [if_neg (by norm_num), rdpMaxScan_corner_example]
  rw [if_pos (by exact corner_dist_gt_tolerance)]
  rw [show ([(⟨0,0,0⟩ : Point3), ⟨10,0,0⟩, ⟨10,10,0⟩]).take (1 + 1)
    = [⟨0,0,0⟩, ⟨10,0,0⟩] from rfl]
  rw [show ([(⟨0,0,0⟩ : Point3), ⟨10,0,0⟩, ⟨10,10,0⟩]).drop 1
    = [⟨10,0,0⟩, ⟨10,10,0⟩] from rfl]
  show (match ramer_douglas_peucker (1 + 1) [⟨0,0,0⟩, ⟨10,0,0⟩] 0.1,
      ramer_douglas_peucker (1 + 1) [⟨10,0,0⟩, ⟨10,10,0⟩] 0.1 with
    | some left_indices, some right_indices =>
      some (left_indices ++ (right_indices.drop 1).map (fun i => i + 1))
    | _, _ => none) = some [0, 1, 2]
  have h2 : ∀ a b : Point3, ramer_douglas_peucker (1 + 1) [a, b] 0.1 =
      some [0, 1] := by
    intro a b
    simp only [ramer_douglas_peucker]
    rw [if_pos (by norm_num)]
    rfl
  rw [h2, h2]
  rfl

/-- C6: simplifying the collinear points (0,0,0), (5,0,0), (10,0,0) with
tolerance 0.1 keeps exactly indices 0 and 2, i.e. the points (0,0,0) and
(10,0,0); simplifying the corner (0,0,0), (10,0,0), (10,10,0) with the
same tolerance keeps all three points including the middle one.  (Fuel 3,
the list length, is enough recursion depth for both runs.) -/
theorem C6_rdp_collinear_and_corner :
    (ramer_douglas_peucker 3 [⟨0, 0, 0⟩, ⟨5, 0, 0⟩, ⟨10, 0, 0⟩] 0.1 =
        some [0, 2] ∧
      selectIndices [(⟨0, 0, 0⟩ : Point3), ⟨5, 0, 0⟩, ⟨10, 0, 0⟩] [0, 2] =
        [⟨0, 0, 0⟩, ⟨10, 0, 0⟩]) ∧
    (ramer_douglas_peucker 3 [⟨0, 0, 0⟩, ⟨10, 0, 0⟩, ⟨10, 10, 0⟩] 0.1 =
        some [0, 1, 2] ∧
      selectIndices [(⟨0, 0, 0⟩ : Point3), ⟨10, 0, 0⟩, ⟨10, 10, 0⟩] [0, 1, 2] =
        [⟨0, 0, 0⟩, ⟨10, 0, 0⟩, ⟨10, 10, 0⟩]) :=
  ⟨⟨rdp_collinear_example, rfl⟩, ⟨rdp_corner_example, rfl⟩⟩

theorem chain'_pred :
    ∀ {idxs : List ℕ}, List.Chain' (· < ·) idxs → (∀ i ∈ idxs, 1 ≤ i) →
      List.Chain' (· < ·) (idxs.map (fun j => j - 1))
  | [], _, _ => List.chain'_nil
  | [_], _, _ => List.chain'_singleton _
  | a :: b :: t, hc, hpos => by
    rcases List.chain'_cons.1 hc with ⟨hab, hct⟩
    have ha : 1 ≤ a := hpos a (by simp)
    refine List.chain'_cons.2 ⟨?_, ?_⟩
    · show a - 1 < b - 1
      omega
    · exact chain'_pred hct (fun i hi => hpos i (List.mem_cons_of_mem _ hi))

theorem selectIndices_map {β : Type} [Inhabited β] (l : List β) :
    ∀ (idxs : List ℕ), (∀ i ∈ idxs, i < l.length) →
      selectIndices l idxs = idxs.map (fun i => l.getD i default) := by
  intro idxs
  induction idxs with
  | nil => intro _; rfl
  | cons i rest ih =>
    intro hb
    have hi : i < l.length := hb i (by simp)
    have htail := ih (fun j hj => hb j (List.mem_cons_of_mem _ hj))
    show List.filterMap (fun i => l[i]?) (i :: rest) = _
    rw [List.filterMap_cons, List.getElem?_eq_getElem hi]
    rw [List.map_cons, ← htail]
    show l[i] :: selectIndices l rest = l.getD i default :: selectIndices l rest
    rw [List.getD_eq_getElem l default hi]

theorem selectIndices_sublist {β : Type} :
    ∀ (l : List β) (idxs : List ℕ), List.Chain' (· < ·) idxs →
      List.Sublist (selectIndices l idxs) l := by
  intro l
  induction l with
  | nil =>
    intro idxs _
    have h : selectIndices ([] : List β) idxs = [] := by
      simp [selectIndices]
    rw [h]
  | cons a l' ih =>
    intro idxs hchain
    match idxs with
    | [] => exact List.nil_sublist _
    | 0 :: rest =>
      have hpos : ∀ j ∈ rest, 1 ≤ j := by
        have hp := List.chain'_iff_pairwise.1 hchain
        intro j hj
        have := (List.pairwise_cons.1 hp).1 j hj
        omega
      have heq : selectIndices (a :: l') (0 :: rest) =
          a :: selectIndices l' (rest.map (fun j => j - 1)) := by
        show List.filterMap (fun i => (a :: l')[i]?) (0 :: rest) = _
        rw [List.filterMap_cons, List.getElem?_cons_zero]
        show a :: List.filterMap (fun i => (a :: l')[i]?) rest =
          a :: List.filterMap (fun i => l'[i]?) (rest.map (fun j => j - 1))
        rw [List.filterMap_map]
        congr 1
        apply List.filterMap_congr
        intro j hj
        have hj1 : 1 ≤ j := hpos j hj
        show (a :: l')[j]? = l'[j - 1]?
        conv_lhs => rw [show j = (j - 1) + 1 by omega]
        rw [List.getElem?_cons_succ]
      rw [heq]
      exact List.Sublist.cons₂ a
        (ih (rest.map (fun j => j - 1))
          (chain'_pred (List.Chain'.tail hchain) hpos))
    | (i + 1) :: rest =>
      have hpos : ∀ j ∈ (i + 1) :: rest, 1 ≤ j := by
        have hp := List.chain'_iff_pairwise.1 hchain
        intro j hj
        rcases List.mem_cons.1 hj with rfl | hj
        · omega
        · have := (List.pairwise_cons.1 hp).1 j hj
          omega
      have heq : selectIndices (a :: l') ((i + 1) :: rest) =
          selectIndices l' (((i + 1) :: rest).map (fun j => j - 1)) := by
        show List.filterMap (fun i => (a :: l')[i]?) ((i + 1) :: rest) =
          List.filterMap (fun i => l'[i]?) (((i + 1) :: rest).map (fun j => j - 1))
        rw [List.filterMap_map]
        apply List.filterMap_congr
        intro j hj
        have hj1 : 1 ≤ j := hpos j hj
        show (a :: l')[j]? = l'[j - 1]?
        conv_lhs => rw [show j = (j - 1) + 1 by omega]
        rw [List.getElem?_cons_succ]
      rw [heq]
      exact List.Sublist.cons a (ih _ (chain'_pred hchain hpos))

theorem foldl_argmax_cases (f : ℕ → ℝ) :
    ∀ (l : List ℕ) (ini : ℝ × ℕ),
      l.foldl (fun acc i => if f i > acc.1 then (f i, i) else acc) ini = ini ∨
      ∃ i ∈ l, l.foldl (fun acc i => if f i > acc.1 then (f i, i) else acc) ini
        = (f i, i) := by
  intro l
  induction l with
  | nil => intro ini; left; rfl
  | cons a t ih =>
    intro ini
    rw [List.foldl_cons]
    rcases ih (if f a > ini.1 then (f a, a) else ini) with h | ⟨i, hi, h⟩
    · rw [h]
      split
      · right
        exact ⟨a, by simp, rfl⟩
      · left
        rfl
    · right
      exact ⟨i, List.mem_cons_of_mem _ hi, h⟩

theorem rdpMaxScan_cases (points : List Point3) :
    rdpMaxScan points = (0, 0) ∨
    (1 ≤ (rdpMaxScan points).2 ∧ (rdpMaxScan points).2 + 2 ≤ points.length) := by
  have h := foldl_argmax_cases
    (fun i => point_to_line_distance (points.getD i default)
      (points.headD default) (points.getLastD default))
    (List.range' 1 (points.length - 2)) (0, 0)
  rcases h with h | ⟨i, hi, h⟩
  · left
    exact h
  · right
    have hsc : rdpMaxScan points =
        (point_to_line_distance (points.getD i default)
          (points.headD default) (points.getLastD default), i) := h
    rw [hsc]
    have hmem := List.mem_range'_1.1 hi
    exact ⟨by omega, by omega⟩

theorem rdp_spec :
    ∀ (fuel : ℕ) (points : List Point3) (tolerance : ℝ),
      0 ≤ tolerance → points ≠ [] → points.length ≤ fuel →
      ∃ idxs, ramer_douglas_peucker fuel points tolerance = some idxs ∧
        idxs.head? = some 0 ∧ idxs.getLast? = some (points.length - 1) ∧
        List.Chain' (· < ·) idxs ∧ ∀ i ∈ idxs, i < points.length := by
  intro fuel
  induction fuel with
  | zero =>
    intro points tolerance _ hne hlen
    exact absurd (List.length_pos.2 hne) (by omega)
  | succ n ih =>
    intro points tolerance htol hne hlen
    simp only [ramer_douglas_peucker]
    by_cases hsmall : points.length ≤ 2
    · rw [if_pos hsmall]
      have h1 : 0 < points.length := List.length_pos.2 hne
      have : points.length = 1 ∨ points.length = 2 := by omega
      rcases this with h | h <;> rw [h]
      · exact ⟨[0], rfl, rfl, rfl, List.chain'_singleton 0, by simp⟩
      · refine ⟨[0, 1], rfl, rfl, rfl, List.chain'_pair.2 (by omega), ?_⟩
        intro i hi
        rcases List.mem_cons.1 hi with rfl | hi
        · omega
        · simp at hi
          omega
    · rw [if_neg hsmall]
      have hlen3 : 3 ≤ points.length := by omega
      by_cases hgt : (rdpMaxScan points).1 > tolerance
      · rw [if_pos hgt]
        have hm : 1 ≤ (rdpMaxScan points).2 ∧
            (rdpMaxScan points).2 + 2 ≤ points.length := by
          rcases rdpMaxScan_cases points with h0 | hb
          · rw [h0] at hgt
            exact absurd hgt (by simpa using htol)
          · exact hb
        set m := (rdpMaxScan points).2 with hmdef
        have htake_len : (points.take (m + 1)).length = m + 1 := by
          rw [List.length_take]
          omega
        have hdrop_len : (points.drop m).length = points.length - m := by
          rw [List.length_drop]
        obtain ⟨li, hli, hlih, hlil, hlic, hlib⟩ :=
          ih (points.take (m + 1)) tolerance htol
            (by rw [← List.length_pos, htake_len]; omega) (by omega)
        obtain ⟨ri, hri, hrih, hril, hric, hrib⟩ :=
          ih (points.drop m) tolerance htol
            (by rw [← List.length_pos, hdrop_len]; omega) (by omega)
        rw [hli, hri]
        rw [htake_len] at hlil hlib
        rw [hdrop_len] at hril hrib
        obtain ⟨rest, rfl⟩ : ∃ rest, ri = 0 :: rest := by
          cases ri with
          | nil => simp at hrih
          | cons r0 rest =>
            refine ⟨rest, ?_⟩
            simp at hrih
            rw [hrih]
        have hrest_ne : rest ≠ [] := by
          intro hrest
          subst hrest
          simp at hril
          omega
        obtain ⟨r1, rest', rfl⟩ : ∃ r1 rest', rest = r1 :: rest' := by
          cases rest with
          | nil => exact absurd rfl hrest_ne
          | cons r1 rest' => exact ⟨r1, rest', rfl⟩
        have hr1 : 0 < r1 := (List.chain'_cons.1 hric).1
        have hril' : (r1 :: rest').getLast? = some (points.length - m - 1) := by
          rw [← hril, List.getLast?_cons_cons]
        refine ⟨li ++ ((0 :: r1 :: rest').drop 1).map (fun i => i + m),
          rfl, ?_, ?_, ?_, ?_⟩
        · rw [List.head?_append, hlih]
          rfl
        · rw [List.getLast?_append_of_ne_nil _ (by simp), List.drop_one,
            List.tail_cons, List.getLast?_map, hril']
          have : points.length - m - 1 + m = points.length - 1 := by omega
          simp [this]
        · rw [List.chain'_append]
          refine ⟨hlic, ?_, ?_⟩
          · rw [List.drop_one, List.tail_cons]
            refine (List.chain'_map _).2 ?_
            exact List.Chain'.imp (fun a b hab => by omega)
              (List.Chain'.tail hric)
          · intro x hx y hy
            rw [hlil] at hx
            rw [List.drop_one, List.tail_cons, List.map_cons,
              List.head?_cons] at hy
            simp at hx hy
            omega
        · intro i hi
          rcases List.mem_append.1 hi with hi | hi
          · have := hlib i hi
            omega
          · rw [List.drop_one, List.tail_cons] at hi
            rcases List.mem_map.1 hi with ⟨j, hj, rfl⟩
            have hjlt : j < points.length - m :=
              hrib j (List.mem_cons_of_mem _ hj)
            omega
      · rw [if_neg hgt]
        refine ⟨[0, points.length - 1], rfl, rfl, rfl, ?_, ?_⟩
        · exact List.chain'_pair.2 (by omega)
        · intro i hi
          rcases List.mem_cons.1 hi with rfl | hi
          · omega
          · simp at hi
            omega

/-- C10 (amended): for every *nonempty* waypoint list and every
*nonnegative* tolerance, `_ramer_douglas_peucker` (run with recursion
depth `points.length`, which suffices) returns a strictly increasing index
list that contains index 0 first and the last index last; consequently the
selected waypoints are a subsequence of the original list with the same
first and last waypoints.  (The counterexample shows the original claim
fails for a negative tolerance, where the source recursion never returns,
and is vacuous for an empty list.) -/
theorem C10_rdp_selection (points : List Point3) (tolerance : ℝ)
    (htol : 0 ≤ tolerance) (hne : points ≠ []) :
    ∃ idxs, ramer_douglas_peucker points.length points tolerance = some idxs ∧
      List.Chain' (· < ·) idxs ∧
      idxs.head? = some 0 ∧
      idxs.getLast? = some (points.length - 1) ∧
      List.Sublist (selectIndices points idxs) points ∧
      (selectIndices points idxs).head? = points.head? ∧
      (selectIndices points idxs).getLast? = points.getLast? := by
  obtain ⟨idxs, hrun, hh, hl, hc, hb⟩ :=
    rdp_spec points.length points tolerance htol hne le_rfl
  have hpos : 0 < points.length := List.length_pos.2 hne
  refine ⟨idxs, hrun, hc, hh, hl,
    selectIndices_sublist points idxs hc, ?_, ?_⟩
  · rw [selectIndices_map points idxs hb, List.head?_map, hh]
    obtain ⟨p0, ps, rfl⟩ : ∃ p0 ps, points = p0 :: ps := by
      cases points with
      | nil => exact absurd rfl hne
      | cons p0 ps => exact ⟨p0, ps, rfl⟩
    rfl
  · rw [selectIndices_map points idxs hb, List.getLast?_map, hl]
    have hlt : points.length - 1 < points.length := by omega
    rw [List.getLast?_eq_getElem?, List.getElem?_eq_getElem hlt]
    simp only [Option.map_some']
    rw [List.getD_eq_getElem points default hlt]

/-- C10 counterexample: with the three collinear points (0,0,0), (5,0,0),
(10,0,0) and tolerance -1, the maximum interior distance is 0 > -1 at
index 0, so the source recurses on `points[0:]` — the whole list — and
never returns: for no recursion depth does the index selection produce a
result.  Hence "for every input waypoint list and every tolerance" the
function does not return a strictly increasing index list. -/
theorem C10_cex_negative_tolerance_diverges :
    ¬ ∃ (fuel : ℕ) (idxs : List ℕ),
      ramer_douglas_peucker fuel [⟨0, 0, 0⟩, ⟨5, 0, 0⟩, ⟨10, 0, 0⟩] (-1)
        = some idxs := by
  have key : ∀ fuel,
      ramer_douglas_peucker fuel [⟨0, 0, 0⟩, ⟨5, 0, 0⟩, ⟨10, 0, 0⟩] (-1)
        = none := by
    intro fuel
    induction fuel with
    | zero => rfl
    | succ n ih =>
      show ramer_douglas_peucker (n + 1) _ _ = none
      simp only [ramer_douglas_peucker]
      rw [if_neg (by norm_num), rdpMaxScan_collinear_example]
      rw [if_pos (show ((0 : ℝ), (0 : ℕ)).1 > -1 by norm_num)]
      rw [show ([(⟨0,0,0⟩ : Point3), ⟨5,0,0⟩, ⟨10,0,0⟩]).take
        (((0 : ℝ), (0 : ℕ)).2 + 1) = [⟨0,0,0⟩] from rfl]
      rw [show ([(⟨0,0,0⟩ : Point3), ⟨5,0,0⟩, ⟨10,0,0⟩]).drop
        (((0 : ℝ), (0 : ℕ)).2) = [⟨0,0,0⟩, ⟨5,0,0⟩, ⟨10,0,0⟩] from rfl]
      rw [ih]
      cases ramer_douglas_peucker n [(⟨0,0,0⟩ : Point3)] (-1) <;> rfl
  rintro ⟨fuel, idxs, h⟩
  rw [key fuel] at h
  exact Option.noConfusion h

/-- C10 witness: a concrete corner at tolerance 0. -/
theorem C10_rdp_selection_witness :
    ∃ idxs, ramer_douglas_peucker 3 [⟨0, 0, 0⟩, ⟨1, 1, 0⟩, ⟨2, 0, 0⟩] 0
        = some idxs ∧
      List.Chain' (· < ·) idxs ∧
      idxs.head? = some 0 ∧
      idxs.getLast? = some 2 ∧
      List.Sublist
        (selectIndices [(⟨0, 0, 0⟩ : Point3), ⟨1, 1, 0⟩, ⟨2, 0, 0⟩] idxs)
        [⟨0, 0, 0⟩, ⟨1, 1, 0⟩, ⟨2, 0, 0⟩] ∧
      (selectIndices [(⟨0, 0, 0⟩ : Point3), ⟨1, 1, 0⟩, ⟨2, 0, 0⟩] idxs).head?
        = some ⟨0, 0, 0⟩ ∧
      (selectIndices [(⟨0, 0, 0⟩ : Point3), ⟨1, 1, 0⟩, ⟨2, 0, 0⟩] idxs).getLast?
        = some ⟨2, 0, 0⟩ :=
  C10_rdp_selection [⟨0, 0, 0⟩, ⟨1, 1, 0⟩, ⟨2, 0, 0⟩] 0 le_rfl (by simp)

/-! ### C2/C3: calculate_route state changes -/

theorem filter_active_deactivated (routes : List CableRoute) (cable : ℕ) :
    (routes.map (fun r =>
      if r.cable = cable ∧ r.is_active = true then { r with is_active := false }
      else r)).filter
        (fun r => decide (r.cable = cable) && r.is_active) = [] := by
  induction routes with
  | nil => rfl
  | cons r t ih =>
    rw [List.map_cons, List.filter_cons]
    by_cases hr : r.cable = cable ∧ r.is_active = true
    · rw [if_pos hr]
      simp only [Bool.and_false]
      rw [if_neg (by simp)]
      exact ih
    · rw [if_neg hr]
      have : (decide (r.cable = cable) && r.is_active) = false := by
        by_cases hc : r.cable = cable
        · have : r.is_active = false := by
            cases hact : r.is_active
            · rfl
            · exact absurd ⟨hc, hact⟩ hr
          simp [this]
        · simp [hc]
      rw [this, if_neg (by simp)]
      exact ih

/-- C2: whenever `calculate_route` succeeds, it has first deactivated every
previously active route of the cable and then created exactly one new
active route, so afterwards the cable has exactly one (hence at most one)
active route. -/
theorem C2_at_most_one_active_route (all : List CablePathway) (fuel : ℕ)
    (db : EngineDB) (cable : ℕ) (origin destination : Point3)
    (res : RouteResult) (db' : EngineDB)
    (h : calculate_route all fuel db cable origin destination = some (res, db'))
    (hs : res.success = true) :
    countActiveRoutes db' cable = 1 := by
  simp only [calculate_route] at h
  split at h
  · simp only [Option.some.injEq, Prod.mk.injEq] at h
    rw [← h.1] at hs
    simp at hs
  · split at h
    case _ origin_pathway dest_pathway =>
      split at h
      · exact Option.noConfusion h
      · simp only [Option.some.injEq, Prod.mk.injEq] at h
        rw [← h.1] at hs
        simp at hs
      case _ ids =>
        simp only [Option.some.injEq, Prod.mk.injEq] at h
        rw [← h.2]
        simp only [countActiveRoutes]
        rw [List.filter_append, filter_active_deactivated, List.filter_cons]
        simp
    case _ =>
      simp only [Option.some.injEq, Prod.mk.injEq] at h
      rw [← h.1] at hs
      simp at hs

/-- C2 witness: one active pathway, origin = destination on it; the
calculation succeeds and leaves the cable with exactly one active route. -/
theorem C2_at_most_one_active_route_witness :
    ∃ res db',
      calculate_route
        [{ id := 1, name := "P", is_active := true,
           start_x := 0, start_y := 0, start_z := 0,
           end_x := 1, end_y := 0, end_z := 0, connected := [] }] 5
        ⟨[], [], [], 0⟩ 1 ⟨0, 0, 0⟩ ⟨0, 0, 0⟩ = some (res, db') ∧
      res.success = true ∧ countActiveRoutes db' 1 = 1 := by
  exact ⟨_, _, rfl, rfl,
    C2_at_most_one_active_route
      [{ id := 1, name := "P", is_active := true,
         start_x := 0, start_y := 0, start_z := 0,
         end_x := 1, end_y := 0, end_z := 0, connected := [] }] 5
      ⟨[], [], [], 0⟩ 1 ⟨0, 0, 0⟩ ⟨0, 0, 0⟩ _ _ rfl rfl⟩

/-- C3: on every failing routing request — empty pathway set, no pathway
found near an endpoint, or no connecting sequence between the two located
pathways — `calculate_route` returns a failure value (success false, no
route, empty waypoints, zero length, a nonempty explanatory message) and
leaves the database unchanged: no route or waypoint row is created, none
is deactivated, and no cable is updated. -/
theorem C3_failure_returns_value_without_state_change
    (all : List CablePathway) (fuel : ℕ) (db : EngineDB) (cable : ℕ)
    (origin destination : Point3)
    (hfail :
      (all.filter (fun p => p.is_active)).isEmpty = true ∨
      find_nearest_pathway (all.filter (fun p => p.is_active)) origin = none ∨
      find_nearest_pathway (all.filter (fun p => p.is_active)) destination
        = none ∨
      (∃ op dp,
        find_nearest_pathway (all.filter (fun p => p.is_active)) origin
          = some op ∧
        find_nearest_pathway (all.filter (fun p => p.is_active)) destination
          = some dp ∧
        op.id ≠ dp.id ∧ bfs (adjOf all) op.id dp.id fuel = some none)) :
    ∃ res : RouteResult,
      calculate_route all fuel db cable origin destination = some (res, db) ∧
      res.success = false ∧ res.route = none ∧ res.waypoints = [] ∧
      res.total_length = 0 ∧ res.message ≠ "" := by
  simp only [calculate_route]
  by_cases hemp : (all.filter (fun p => p.is_active)).isEmpty
  · rw [if_pos hemp]
    exact ⟨_, rfl, rfl, rfl, rfl, rfl, by decide⟩
  · rw [if_neg hemp]
    rcases hfail with h1 | h2 | h3 | ⟨op, dp, hop, hdp, hne, hbfs⟩
    · exact absurd h1 hemp
    · rw [h2]
      exact ⟨_, rfl, rfl, rfl, rfl, rfl, by decide⟩
    · cases hfno : find_nearest_pathway
          (all.filter (fun p => p.is_active)) origin with
      | none =>
        exact ⟨_, rfl, rfl, rfl, rfl, rfl, by decide⟩
      | some op =>
        rw [h3]
        exact ⟨_, rfl, rfl, rfl, rfl, rfl, by decide⟩
    · simp only [hop, hdp]
      rw [if_neg hne, hbfs]
      exact ⟨_, rfl, rfl, rfl, rfl, rfl, by decide⟩

/-- C3 witness: with no pathways in the database, the request fails as a
value and the database is untouched. -/
theorem C3_failure_returns_value_without_state_change_witness :
    ∃ res : RouteResult,
      calculate_route [] 1 ⟨[], [], [], 0⟩ 1 ⟨0, 0, 0⟩ ⟨1, 1, 1⟩
        = some (res, ⟨[], [], [], 0⟩) ∧
      res.success = false ∧ res.route = none ∧ res.waypoints = [] ∧
      res.total_length = 0 ∧ res.message ≠ "" :=
  C3_failure_returns_value_without_state_change [] 1 ⟨[], [], [], 0⟩ 1
    ⟨0, 0, 0⟩ ⟨1, 1, 1⟩ (Or.inl rfl)

/-! ### C1: BFS hop-minimality -/

theorem path_take_spec {adj : ℕ → List ℕ} {start : ℕ} {π : List ℕ}
    (hh : π.head? = some start)
    (hc : List.Chain' (fun a b => b ∈ adj a) π)
    (j : ℕ) (hj : j < π.length) :
    (π.take (j + 1)).head? = some start ∧
    List.Chain' (fun a b => b ∈ adj a) (π.take (j + 1)) ∧
    (π.take (j + 1)).getLast? = some π[j] ∧
    (π.take (j + 1)).length = j + 1 := by
  have hlen : (π.take (j + 1)).length = j + 1 := by
    rw [List.length_take]
    omega
  refine ⟨?_, hc.take _, ?_, hlen⟩
  · cases π with
    | nil => simp at hj
    | cons s t =>
      rw [List.take_succ_cons]
      simpa using hh
  · rw [List.getLast?_eq_getElem?, hlen]
    rw [show j + 1 - 1 = j from rfl]
    rw [List.getElem?_take_of_lt (by omega)]
    exact List.getElem?_eq_getElem hj

theorem queue_head_min {queue : List (List ℕ)}
    (hs : List.Chain' (· ≤ ·) (queue.map List.length)) :
    ∀ h, queue.head? = some h → ∀ p ∈ queue, h.length ≤ p.length := by
  intro h hh p hp
  have hpw := List.chain'_iff_pairwise.1 hs
  cases queue with
  | nil => simp at hh
  | cons q rest =>
    obtain rfl : q = h := by simpa using hh
    rcases List.mem_cons.1 hp with rfl | hp
    · exact le_refl _
    · rw [List.map_cons] at hpw
      exact (List.pairwise_cons.1 hpw).1 p.length
        (List.mem_map_of_mem List.length hp)

theorem enqueue_neighbors_spec (current : List ℕ) :
    ∀ (ns : List ℕ) (queue : List (List ℕ)) (visited : Finset ℕ),
      ∃ added : List ℕ,
        (enqueue_neighbors current ns queue visited).1 =
          queue ++ added.map (fun n => current ++ [n]) ∧
        (enqueue_neighbors current ns queue visited).2 =
          visited ∪ added.toFinset ∧
        added.Nodup ∧
        (∀ n ∈ added, n ∉ visited ∧ n ∈ ns) ∧
        (∀ n ∈ ns, n ∈ visited ∨ n ∈ added) := by
  intro ns
  induction ns with
  | nil =>
    intro queue visited
    refine ⟨[], by simp [enqueue_neighbors], by simp [enqueue_neighbors],
      List.nodup_nil, by simp, by simp⟩
  | cons n tl ih =>
    intro queue visited
    by_cases hn : n ∈ visited
    · have hstep : enqueue_neighbors current (n :: tl) queue visited =
          enqueue_neighbors current tl queue visited := by
        rw [enqueue_neighbors, List.foldl_cons, if_pos hn]
        rfl
      rw [hstep]
      obtain ⟨added, h1, h2, h3, h4, h5⟩ := ih queue visited
      refine ⟨added, h1, h2, h3, ?_, ?_⟩
      · intro m hm
        exact ⟨(h4 m hm).1, List.mem_cons_of_mem _ (h4 m hm).2⟩
      · intro m hm
        rcases List.mem_cons.1 hm with rfl | hm
        · exact Or.inl hn
        · exact h5 m hm
    · have hstep : enqueue_neighbors current (n :: tl) queue visited =
          enqueue_neighbors current tl (queue ++ [current ++ [n]])
            (insert n visited) := by
        rw [enqueue_neighbors, List.foldl_cons, if_neg hn]
        rfl
      rw [hstep]
      obtain ⟨added, h1, h2, h3, h4, h5⟩ :=
        ih (queue ++ [current ++ [n]]) (insert n visited)
      refine ⟨n :: added, ?_, ?_, ?_, ?_, ?_⟩
      · rw [h1, List.map_cons]
        simp [List.append_assoc]
      · rw [h2]
        ext x
        simp only [Finset.mem_union, Finset.mem_insert, List.mem_toFinset,
          List.mem_cons]
        tauto
      · refine List.nodup_cons.2 ⟨?_, h3⟩
        intro hmem
        exact (h4 n hmem).1 (Finset.mem_insert_self n visited)
      · intro m hm
        rcases List.mem_cons.1 hm with rfl | hm
        · exact ⟨hn, by simp⟩
        · have := h4 m hm
          exact ⟨fun hmv => this.1 (Finset.mem_insert_of_mem hmv),
            List.mem_cons_of_mem _ this.2⟩
      · intro m hm
        rcases List.mem_cons.1 hm with rfl | hm
        · exact Or.inr (by simp)
        · rcases h5 m hm with h | h
          · rcases Finset.mem_insert.1 h with rfl | h
            · exact Or.inr (by simp)
            · exact Or.inl h
          · exact Or.inr (List.mem_cons_of_mem _ h)

theorem union_card_of_added {added : List ℕ} {visited : Finset ℕ}
    (h3 : added.Nodup) (h4 : ∀ n ∈ added, n ∉ visited) :
    (visited ∪ added.toFinset).card = visited.card + added.length := by
  rw [Finset.card_union_of_disjoint]
  · rw [List.toFinset_card_of_nodup h3]
  · rw [Finset.disjoint_right]
    intro a ha
    exact h4 a (List.mem_toFinset.1 ha)

theorem bfs_frontier {adj : ℕ → List ℕ} {start target : ℕ} {nodes : Finset ℕ}
    {queue : List (List ℕ)} {visited : Finset ℕ}
    (inv : BfsInv adj start target nodes queue visited) :
    ∀ (π : List ℕ), π.head? = some start →
      List.Chain' (fun a b => b ∈ adj a) π →
      ∀ j, ∀ hj : j < π.length, π[j] ∉ visited →
        ∃ p ∈ queue, ∃ i, i ≤ j ∧ ∃ hi : i < π.length,
          p.getLast? = some π[i] ∧ p.length ≤ i + 1 := by
  intro π hπh hπc j
  induction j using Nat.strong_induction_on with
  | _ j IH =>
    intro hj hnv
    match j, hj, hnv with
    | 0, hj, hnv =>
      exfalso
      apply hnv
      cases π with
      | nil => simp at hj
      | cons s t =>
        have : s = start := by simpa using hπh
        simpa [this] using inv.startVis
    | j' + 1, hj, hnv =>
      have hj' : j' < π.length := by omega
      by_cases hu : π[j'] ∈ visited
      · rcases inv.expanded _ hu with ⟨p, hp, hpl⟩ | hall
        · have htake := path_take_spec hπh hπc j' hj'
          have hplen : p.length ≤ j' + 1 := by
            have := inv.shortest p hp (π.take (j' + 1)) htake.1 htake.2.1
              (by rw [htake.2.2.1, hpl])
            rw [htake.2.2.2] at this
            exact this
          exact ⟨p, hp, j', by omega, hj', hpl, hplen⟩
        · exfalso
          apply hnv
          apply hall
          have hcg := List.chain'_iff_get.1 hπc j' (by omega)
          simpa using hcg
      · obtain ⟨p, hp, i, hile, hi, hlast, hlen⟩ := IH j' (by omega) hj' hu
        exact ⟨p, hp, i, by omega, hi, hlast, hlen⟩

theorem chain'_le_const {α : Type} (c : ℕ) :
    ∀ (l : List α), List.Chain' (· ≤ ·) (l.map fun _ => c)
  | [] => List.chain'_nil
  | [_] => List.chain'_singleton _
  | _ :: b :: t => List.chain'_cons.2 ⟨le_refl c, chain'_le_const c (b :: t)⟩

theorem bfs_inv_step {adj : ℕ → List ℕ} {start target : ℕ} {nodes : Finset ℕ}
    {current : List ℕ} {rest : List (List ℕ)} {visited : Finset ℕ} {cur : ℕ}
    (hclosed : ∀ v ∈ nodes, ∀ n ∈ adj v, n ∈ nodes)
    (inv : BfsInv adj start target nodes (current :: rest) visited)
    (hlast : current.getLast? = some cur)
    (hne : cur ≠ target) :
    BfsInv adj start target nodes
      (enqueue_neighbors current (adj cur) rest visited).1
      (enqueue_neighbors current (adj cur) rest visited).2 ∧
    (enqueue_neighbors current (adj cur) rest visited).1.length +
        (enqueue_neighbors current (adj cur) rest visited).2.card
      = rest.length + visited.card +
        ((enqueue_neighbors current (adj cur) rest visited).2.card
          - visited.card) * 2 ∧
    visited.card ≤ (enqueue_neighbors current (adj cur) rest visited).2.card ∧
    (enqueue_neighbors current (adj cur) rest visited).2.card ≤ nodes.card := by
  obtain ⟨added, h1, h2, h3, h4, h5⟩ :=
    enqueue_neighbors_spec current (adj cur) rest visited
  have hcur_vis : cur ∈ visited :=
    inv.qlastVis current (by simp) cur hlast
  have hcur_node : cur ∈ nodes := inv.visNodes hcur_vis
  have hadj_nodes : ∀ n ∈ adj cur, n ∈ nodes := hclosed cur hcur_node
  have hcur_head : current.head? = some start := inv.qhead current (by simp)
  have hminlen : ∀ p ∈ current :: rest, current.length ≤ p.length :=
    queue_head_min inv.sorted current rfl
  have hbdd : ∀ p ∈ rest, p.length ≤ current.length + 1 := fun p hp =>
    inv.bddByHead p (List.mem_cons_of_mem _ hp) current rfl
  have hvis' : visited ⊆ visited ∪ added.toFinset := Finset.subset_union_left
  have haddedsub : ∀ n ∈ added, n ∈ visited ∪ added.toFinset := fun n hn =>
    Finset.mem_union_right _ (List.mem_toFinset.2 hn)
  have hnp_head : ∀ n, (current ++ [n]).head? = some start := by
    intro n
    rw [List.head?_append, hcur_head]
    rfl
  have hnp_chain : ∀ n ∈ added,
      List.Chain' (fun a b => b ∈ adj a) (current ++ [n]) := by
    intro n hn
    rw [List.chain'_append]
    refine ⟨inv.qchain current (by simp), List.chain'_singleton n, ?_⟩
    intro x hx y hy
    rw [hlast] at hx
    simp at hx hy
    rw [← hx, ← hy]
    exact (h4 n hn).2
  have hnp_last : ∀ n, (current ++ [n]).getLast? = some n := fun n =>
    List.getLast?_concat current
  have hnp_len : ∀ n, (current ++ [n]).length = current.length + 1 := by
    intro n
    simp
  have hvisNodes' : visited ∪ added.toFinset ⊆ nodes := by
    intro v hv
    rcases Finset.mem_union.1 hv with hv | hv
    · exact inv.visNodes hv
    · exact hadj_nodes v (h4 v (List.mem_toFinset.1 hv)).2
  have hmemq' : ∀ p, p ∈ rest ++ added.map (fun n => current ++ [n]) →
      p ∈ rest ∨ ∃ n ∈ added, p = current ++ [n] := by
    intro p hp
    rcases List.mem_append.1 hp with hp | hp
    · exact Or.inl hp
    · rcases List.mem_map.1 hp with ⟨n, hn, rfl⟩
      exact Or.inr ⟨n, hn, rfl⟩
  rw [h1, h2]
  refine ⟨?_, ?_, ?_, ?_⟩
  · refine ⟨hvis' inv.startVis, hvisNodes', ?_, ?_, ?_, ?_, ?_, ?_, ?_, ?_⟩
    · intro p hp
      rcases hmemq' p hp with hp | ⟨n, hn, rfl⟩
      · exact inv.qhead p (List.mem_cons_of_mem _ hp)
      · exact hnp_head n
    · intro p hp
      rcases hmemq' p hp with hp | ⟨n, hn, rfl⟩
      · exact inv.qchain p (List.mem_cons_of_mem _ hp)
      · exact hnp_chain n hn
    · intro p hp v hv
      rcases hmemq' p hp with hp | ⟨n, hn, rfl⟩
      · exact hvis' (inv.qlastVis p (List.mem_cons_of_mem _ hp) v hv)
      · rw [hnp_last n] at hv
        injection hv with hv
        rw [← hv]
        exact haddedsub n hn
    · rw [List.map_append]
      rw [List.chain'_append]
      refine ⟨List.Chain'.tail inv.sorted, ?_, ?_⟩
      · have hmm : (added.map (fun n => current ++ [n])).map List.length =
            added.map (fun _ => current.length + 1) := by
          rw [List.map_map]
          apply List.map_congr_left
          intro n _
          simp [Function.comp]
        rw [hmm]
        exact chain'_le_const _ added
      · intro x hx y hy
        rw [List.getLast?_map] at hx
        rcases Option.map_eq_some'.1 (Option.mem_def.1 hx) with ⟨p, hp, rfl⟩
        rw [List.head?_map] at hy
        rcases Option.map_eq_some'.1 (Option.mem_def.1 hy) with ⟨q, hq, rfl⟩
        have hpmem : p ∈ rest := List.mem_of_getLast?_eq_some hp
        rcases List.mem_map.1
          (List.mem_of_mem_head? (Option.mem_def.2 hq)) with ⟨n, hn, rfl⟩
        rw [hnp_len n]
        exact hbdd p hpmem
    · intro p hp h hh
      have hhmem := List.mem_of_mem_head? hh
      have hple : p.length ≤ current.length + 1 := by
        rcases hmemq' p hp with hp | ⟨n, hn, rfl⟩
        · exact hbdd p hp
        · rw [hnp_len n]
      have hhge : current.length ≤ h.length := by
        rcases hmemq' h hhmem with hh' | ⟨n, hn, rfl⟩
        · exact hminlen h (List.mem_cons_of_mem _ hh')
        · rw [hnp_len n]
          omega
      omega
    · intro p hp π hπh hπc hπl
      rcases hmemq' p hp with hp | ⟨n, hn, rfl⟩
      · exact inv.shortest p (List.mem_cons_of_mem _ hp) π hπh hπc hπl
      · rw [hnp_len n]
        by_contra hcon
        push_neg at hcon
        have hπlen : π.length ≤ current.length := by omega
        rw [hnp_last n] at hπl
        have hπne : π ≠ [] := by
          intro hnil
          rw [hnil] at hπl
          simp at hπl
        have hj : π.length - 1 < π.length := by
          have := List.length_pos.2 hπne
          omega
        have hπj : π[π.length - 1] = n := by
          have := List.getLast?_eq_getElem? π
          rw [hπl, List.getElem?_eq_getElem hj] at this
          injection this with this
          rw [this]
        have hnv : π[π.length - 1] ∉ visited := by
          rw [hπj]
          exact (h4 n hn).1
        obtain ⟨q, hq, i, hile, hilt, hqlast, hqlen⟩ :=
          bfs_frontier inv π hπh hπc (π.length - 1) hj hnv
        have hq1 : current.length ≤ q.length := hminlen q hq
        have hieq : i = π.length - 1 := by omega
        subst hieq
        rw [hπj] at hqlast
        exact (h4 n hn).1 (inv.qlastVis q hq n hqlast)
    · intro v hv
      rcases Finset.mem_union.1 hv with hv | hv
      · rcases inv.expanded v hv with ⟨p, hp, hpl⟩ | hall
        · rcases List.mem_cons.1 hp with rfl | hp
          · right
            have hveq : v = cur := by
              rw [hlast] at hpl
              injection hpl with h
              exact h.symm
            intro n hn
            rw [hveq] at hn
            rcases h5 n hn with h | h
            · exact hvis' h
            · exact haddedsub n h
          · left
            exact ⟨p, List.mem_append_left _ hp, hpl⟩
        · right
          exact fun n hn => hvis' (hall n hn)
      · left
        refine ⟨current ++ [v], ?_, ?_⟩
        · exact List.mem_append_right _
            (List.mem_map_of_mem _ (List.mem_toFinset.1 hv))
        · exact hnp_last v
    · intro ht
      rcases Finset.mem_union.1 ht with ht | ht
      · rcases inv.targetQ ht with ⟨p, hp, hpl⟩
        rcases List.mem_cons.1 hp with rfl | hp
        · exfalso
          rw [hlast] at hpl
          injection hpl with hpl
          exact hne hpl
        · exact ⟨p, List.mem_append_left _ hp, hpl⟩
      · exact ⟨current ++ [target],
          List.mem_append_right _
            (List.mem_map_of_mem _ (List.mem_toFinset.1 ht)),
          hnp_last target⟩
  · have hcard := union_card_of_added h3 (fun n hn => (h4 n hn).1)
    rw [List.length_append, List.length_map, hcard]
    omega
  · have hcard := union_card_of_added h3 (fun n hn => (h4 n hn).1)
    rw [hcard]
    omega
  · exact Finset.card_le_card hvisNodes'

theorem bfsAux_cons {adj : ℕ → List ℕ} {target fuel : ℕ} {current : List ℕ}
    {rest : List (List ℕ)} {visited : Finset ℕ} {cur : ℕ}
    (hcur : current.getLast? = some cur) :
    bfsAux adj target (fuel + 1) (current :: rest) visited =
      if cur = target then some (some current)
      else bfsAux adj target fuel
        (enqueue_neighbors current (adj cur) rest visited).1
        (enqueue_neighbors current (adj cur) rest visited).2 := by
  simp only [bfsAux]
  rw [hcur]

theorem queue_front_getLast {current : List ℕ} {rest : List (List ℕ)}
    {adj : ℕ → List ℕ} {start target : ℕ} {nodes : Finset ℕ}
    {visited : Finset ℕ}
    (inv : BfsInv adj start target nodes (current :: rest) visited) :
    ∃ cur, current.getLast? = some cur := by
  have hhead := inv.qhead current (by simp)
  cases hc : current.getLast? with
  | none =>
    rw [List.getLast?_eq_none_iff] at hc
    rw [hc] at hhead
    simp at hhead
  | some c => exact ⟨c, rfl⟩

theorem bfsAux_total {adj : ℕ → List ℕ} {start target : ℕ} {nodes : Finset ℕ}
    (hclosed : ∀ v ∈ nodes, ∀ n ∈ adj v, n ∈ nodes) :
    ∀ (fuel : ℕ) (queue : List (List ℕ)) (visited : Finset ℕ),
      BfsInv adj start target nodes queue visited →
      queue.length + (nodes.card + 1 - visited.card) ≤ fuel →
      ∃ r, bfsAux adj target fuel queue visited = some r := by
  intro fuel
  induction fuel with
  | zero =>
    intro queue visited inv hfu
    have h1 : visited.card ≤ nodes.card := Finset.card_le_card inv.visNodes
    omega
  | succ n ih =>
    intro queue visited inv hfu
    match queue with
    | [] => exact ⟨none, rfl⟩
    | current :: rest =>
      obtain ⟨cur, hcur⟩ := queue_front_getLast inv
      rw [bfsAux_cons hcur]
      by_cases hct : cur = target
      · rw [if_pos hct]
        exact ⟨some current, rfl⟩
      · rw [if_neg hct]
        obtain ⟨inv', heq, hmono, hbound⟩ := bfs_inv_step hclosed inv hcur hct
        apply ih _ _ inv'
        have h1 : visited.card ≤ nodes.card := Finset.card_le_card inv.visNodes
        simp only [List.length_cons] at hfu
        omega

theorem bfsAux_sound {adj : ℕ → List ℕ} {start target : ℕ} {nodes : Finset ℕ}
    (hclosed : ∀ v ∈ nodes, ∀ n ∈ adj v, n ∈ nodes) :
    ∀ (fuel : ℕ) (queue : List (List ℕ)) (visited : Finset ℕ) (p : List ℕ),
      BfsInv adj start target nodes queue visited →
      bfsAux adj target fuel queue visited = some (some p) →
      isPathwaySeq adj start target p ∧
      ∀ π, isPathwaySeq adj start target π → p.length ≤ π.length := by
  intro fuel
  induction fuel with
  | zero =>
    intro queue visited p inv h
    simp [bfsAux] at h
  | succ n ih =>
    intro queue visited p inv h
    match queue with
    | [] => simp [bfsAux] at h
    | current :: rest =>
      obtain ⟨cur, hcur⟩ := queue_front_getLast inv
      rw [bfsAux_cons hcur] at h
      by_cases hct : cur = target
      · rw [if_pos hct] at h
        simp only [Option.some.injEq] at h
        subst h
        have hlastt : current.getLast? = some target := by
          rw [hcur, hct]
        refine ⟨⟨inv.qhead current (by simp), hlastt,
          inv.qchain current (by simp)⟩, ?_⟩
        intro π hπ
        obtain ⟨hπh, hπl, hπc⟩ := hπ
        exact inv.shortest current (by simp) π hπh hπc (by rw [hπl, hlastt])
      · rw [if_neg hct] at h
        exact ih _ _ p (bfs_inv_step hclosed inv hcur hct).1 h

theorem path_all_visited {adj : ℕ → List ℕ} {visited : Finset ℕ}
    (hcl : ∀ v ∈ visited, ∀ n ∈ adj v, n ∈ visited) :
    ∀ (π : List ℕ) (s : ℕ), s ∈ visited → π.head? = some s →
      List.Chain' (fun a b => b ∈ adj a) π → ∀ x ∈ π, x ∈ visited := by
  intro π
  induction π with
  | nil => intro s _ _ _ x hx; simp at hx
  | cons a t ih =>
    intro s hs hh hc x hx
    obtain rfl : a = s := by simpa using hh
    rcases List.mem_cons.1 hx with rfl | hx
    · exact hs
    · cases t with
      | nil => simp at hx
      | cons b t' =>
        have hb : b ∈ adj a := (List.chain'_cons.1 hc).1
        exact ih b (hcl a hs b hb) rfl (List.chain'_cons.1 hc).2 x hx

theorem bfsAux_complete {adj : ℕ → List ℕ} {start target : ℕ}
    {nodes : Finset ℕ}
    (hclosed : ∀ v ∈ nodes, ∀ n ∈ adj v, n ∈ nodes)
    (hconn : ∃ π, isPathwaySeq adj start target π) :
    ∀ (fuel : ℕ) (queue : List (List ℕ)) (visited : Finset ℕ),
      BfsInv adj start target nodes queue visited →
      bfsAux adj target fuel queue visited ≠ some none := by
  intro fuel
  induction fuel with
  | zero =>
    intro queue visited inv h
    simp [bfsAux] at h
  | succ n ih =>
    intro queue visited inv h
    match queue with
    | [] =>
      obtain ⟨π, hπh, hπl, hπc⟩ := hconn
      have hcl : ∀ v ∈ visited, ∀ m ∈ adj v, m ∈ visited := by
        intro v hv m hm
        rcases inv.expanded v hv with ⟨p, hp, _⟩ | hall
        · simp at hp
        · exact hall m hm
      have htv : target ∈ visited :=
        path_all_visited hcl π start inv.startVis hπh hπc target
          (List.mem_of_getLast?_eq_some hπl)
      obtain ⟨p, hp, _⟩ := inv.targetQ htv
      simp at hp
    | current :: rest =>
      obtain ⟨cur, hcur⟩ := queue_front_getLast inv
      rw [bfsAux_cons hcur] at h
      by_cases hct : cur = target
      · rw [if_pos hct] at h
        simp at h
      · rw [if_neg hct] at h
        exact ih _ _ (bfs_inv_step hclosed inv hcur hct).1 h

theorem bfs_inv_init {adj : ℕ → List ℕ} {start target : ℕ} {nodes : Finset ℕ}
    (hstart : start ∈ nodes) :
    BfsInv adj start target nodes [[start]] {start} := by
  refine ⟨Finset.mem_singleton_self start, by simpa, ?_, ?_, ?_, ?_, ?_, ?_,
    ?_, ?_⟩
  · intro p hp
    obtain rfl : p = [start] := by simpa using hp
    rfl
  · intro p hp
    obtain rfl : p = [start] := by simpa using hp
    exact List.chain'_singleton start
  · intro p hp v hv
    obtain rfl : p = [start] := by simpa using hp
    simp at hv
    simp [hv]
  · exact List.chain'_singleton 1
  · intro p hp h hh
    obtain rfl : p = [start] := by simpa using hp
    obtain rfl : [start] = h := by simpa using hh
    omega
  · intro p hp π hπh _ _
    obtain rfl : p = [start] := by simpa using hp
    have : π ≠ [] := by
      intro hnil
      rw [hnil] at hπh
      simp at hπh
    have := List.length_pos.2 this
    simpa using this
  · intro v hv
    obtain rfl : v = start := by simpa using hv
    exact Or.inl ⟨[v], by simp, rfl⟩
  · intro ht
    obtain rfl : target = start := by simpa using ht
    exact ⟨[target], by simp, rfl⟩

/-- C1: on every finite pathway graph with undirected (symmetric)
connectivity, whenever at least one connecting sequence exists between
the origin and destination pathways, `_bfs` (with enough fuel: the node
count plus two bounds its loop iterations) returns a connecting sequence
whose number of pathways is minimal among all connecting sequences. -/
theorem C1_bfs_hop_minimal (adj : ℕ → List ℕ) (nodes : Finset ℕ)
    (start target : ℕ) (hstart : start ∈ nodes)
    (hclosed : ∀ v ∈ nodes, ∀ n ∈ adj v, n ∈ nodes)
    (hsymm : ∀ a b, a ∈ adj b → b ∈ adj a)
    (fuel : ℕ) (hfuel : nodes.card + 2 ≤ fuel)
    (hconn : ∃ π, isPathwaySeq adj start target π) :
    ∃ p, bfs adj start target fuel = some (some p) ∧
      isPathwaySeq adj start target p ∧
      ∀ π, isPathwaySeq adj start target π → p.length ≤ π.length := by
  have inv := @bfs_inv_init adj start target nodes hstart
  have hcard : 1 ≤ nodes.card := Finset.card_pos.2 ⟨start, hstart⟩
  obtain ⟨r, hr⟩ := bfsAux_total hclosed fuel [[start]] {start} inv
    (by simp [Finset.card_singleton]; omega)
  cases r with
  | none => exact absurd hr (bfsAux_complete hclosed hconn fuel [[start]] {start} inv)
  | some p =>
    obtain ⟨hps, hpm⟩ := bfsAux_sound hclosed fuel [[start]] {start} p inv hr
    exact ⟨p, hr, hps, hpm⟩

theorem C1_bfs_hop_minimal_witness :
    ∃ p, bfs twoNodeAdj 0 1 4 = some (some p) ∧
      isPathwaySeq twoNodeAdj 0 1 p ∧
      ∀ π, isPathwaySeq twoNodeAdj 0 1 π → p.length ≤ π.length := by
  refine C1_bfs_hop_minimal twoNodeAdj {0, 1} 0 1 (by decide) (by decide)
    ?_ 4 (by decide) ⟨[0, 1], ?_⟩
  · intro a b h
    match b with
    | 0 =>
      simp [twoNodeAdj] at h
      subst h
      decide
    | 1 =>
      simp [twoNodeAdj] at h
      subst h
      decide
    | n + 2 =>
      simp only [twoNodeAdj] at h
      rw [if_neg (by omega : ¬ n + 2 = 0), if_neg (by omega : ¬ n + 2 = 1)] at h
      simp at h
  · exact ⟨rfl, rfl, List.chain'_pair.2 (by decide)⟩
